import Mathlib

/-!
Verification of the MiniJava compiler front end (mjc): a shallow embedding of
the semantic analyzer (`mjc/mj_sema.py`, project p3) and of the MJIR code
generator (`mjc/mj_code_aux.py`, project p4), together with theorems settling
the specification claims about assignment compatibility, binary/unary operator
checking, constant annotation, `this`, symbol-table construction, and the
lowering of methods, returns, calls and asserts.
-/

namespace MJC

/-! ## Type domain (mj_type.py)

The Python module declares singleton `MJType` instances for the primitive and
built-in types, plus per-instance `ObjectType(class_name)` and
`MethodType(return_type, param_types)`.  Python identity (`is`) on the
singletons coincides with constructor equality here; for `ObjectType` the
analyzer always compares `typename`, which is the `String` payload below. -/

inductive MJType where
  | boolean
  | char
  | int
  | string
  | stringArr
  | void
  | intArr
  | charArr
  | object (className : String)
  deriving DecidableEq, Repr

/-- Python `MJType.typename` (mj_type.py line 13). -/
def MJType.typename : MJType → String
  | .boolean => "boolean"
  | .char => "char"
  | .int => "int"
  | .string => "String"
  | .stringArr => "String[]"
  | .void => "void"
  | .intArr => "int[]"
  | .charArr => "char[]"
  | .object c => c

/-- Operator-permission set `binary_ops` of each singleton (mj_type.py lines
26-89; `ObjectType.__init__` leaves `binary_ops` empty). `BooleanType` is
declared with `binary_ops={}` (an empty dict), which behaves as an empty set
under membership. -/
def binary_ops : MJType → List String
  | .boolean => []
  | .charArr => ["+"]
  | .char => ["-", "*", "/", "%"]
  | .intArr => []
  | .int => ["+", "-", "*", "/", "%"]
  | .string => ["+", "=="]
  | .stringArr => []
  | .void => []
  | .object _ => []

/-- Operator-permission set `rel_ops` of each singleton (mj_type.py lines
26-89; `ObjectType` gets `rel_ops` equal to equality operators). -/
def rel_ops : MJType → List String
  | .boolean => ["==", "!="]
  | .charArr => ["==", "!="]
  | .char => ["==", "!=", "<", ">", "<=", ">="]
  | .intArr => ["==", "!="]
  | .int => ["==", "!=", "<", ">", "<=", ">="]
  | .string => ["==", "!="]
  | .stringArr => ["==", "!="]
  | .void => []
  | .object _ => ["==", "!="]

/-- Method signature `MethodType(return_type, param_types)` (mj_type.py lines
126-134). -/
structure MethodType where
  return_type : MJType
  param_types : List MJType
  deriving DecidableEq, Repr

/-- Python `typemap` dict shared by `SymbolTableBuilder` and
`SemanticAnalyzer` (mj_sema.py lines 155-166 and 335-346); maps the source
type names to the type singletons.  The `"method"` and `"object"` entries of
the dict map to classes, not instances, and are never hit by the visitors
embedded here, so they are omitted. -/
def typemap : String → Option MJType
  | "boolean" => some .boolean
  | "char" => some .char
  | "int" => some .int
  | "String" => some .string
  | "String[]" => some .stringArr
  | "void" => some .void
  | "int[]" => some .intArr
  | "char[]" => some .charArr
  | _ => none

/-! ## Class environment

The global symbol table registers one `ScopedSymbolTable` per class; during
sweep B the builder stores the superclass scope on the attribute
`superclass` (mj_sema.py line 214).  For the compatibility walk only the
class names and the superclass link matter, so a class table is a list of
`(name, optional superclass name)` records. -/

structure ClassInfo where
  name : String
  superName : Option String
  deriving DecidableEq, Repr

abbrev ClassEnv := List ClassInfo

def lookupClass (env : ClassEnv) (n : String) : Option ClassInfo :=
  env.find? (fun c => c.name = n)

/-- Semantic error kinds (mj_serror.py `SE`), restricted to the kinds raised
by the embedded visitors. -/
inductive SemErr where
  | ASSIGN_TYPE_MISMATCH
  | BINARY_EXPRESSION_TYPE_MISMATCH
  | UNSUPPORTED_BINARY_OPERATION
  | UNSUPPORTED_UNARY_OPERATION
  | ALREADY_DECLARED_NAME
  | ALREADY_DECLARED_FIELD
  | ALREADY_DECLARED_METHOD
  | ALREADY_DECLARED_CLASS
  | UNDECLARED_CLASS
  | UNDECLARED_NAME
  deriving DecidableEq, Repr

/-! ## Assignment compatibility (SemanticAnalyzer.is_type_compatible,
mj_sema.py lines 370-396)

The Python `while` loop walks `actual`'s superclass links, returning `True`
as soon as some strict ancestor is named `declared.typename`.  The loop is
bounded here by a fuel argument; on the tables produced by the builder a fuel
of `env.length` covers every acyclic chain (the Python loop would diverge on
a cyclic `extends` chain, which the builder does not rule out, but no claim
concerns that corner). -/

def superChainHits (env : ClassEnv) : Nat → String → String → Bool
  | 0, _, _ => false
  | fuel + 1, cur, target =>
    match lookupClass env cur with
    | none => false
    | some ci =>
      match ci.superName with
      | none => false
      | some s => if s = target then true else superChainHits env fuel s target

/-- Shallow embedding of `SemanticAnalyzer.is_type_compatible` (mj_sema.py
lines 370-396).  The `declared is actual` identity test on the Python
singletons is constructor equality; the `ObjectType` branch first compares
`typename` and then walks the superclass chain of `actual`. -/
def is_type_compatible (env : ClassEnv) (declared actual : MJType) : Bool :=
  if declared = actual then true
  else if declared = .charArr && actual = .string then true
  else
    match declared, actual with
    | .object c, .object d =>
      if c = d then true else superChainHits env env.length d c
    | _, _ => false

/-! Spec-side rendering of assignment compatibility, used for the refinement
claim C1.  It follows the spec wording: compatibility holds iff the two types
are identical, or both are object types with the right class the same as or a
transitive subclass of the left class, or the left is `char[]` and the right
is `String`. -/

/-- Modelled from the spec: the superclass chain of class `c` (the list of
strict ancestors, innermost first), bounded by fuel. -/
def superclassChain (env : ClassEnv) : Nat → String → List String
  | 0, _ => []
  | fuel + 1, c =>
    match lookupClass env c with
    | none => []
    | some ci =>
      match ci.superName with
      | none => []
      | some s => s :: superclassChain env fuel s

/-- Modelled from the spec: `d` is a (strict, transitive) subclass of `c`. -/
def specIsSubclass (env : ClassEnv) (d c : String) : Bool :=
  c ∈ superclassChain env env.length d

/-- Modelled from the spec: assignment compatibility as §4.2 states it. -/
def specAssignCompatible (env : ClassEnv) (l r : MJType) : Bool :=
  (l = r) ||
  (match l, r with
   | .object c, .object d => d = c || specIsSubclass env d c
   | _, _ => false) ||
  (l = .charArr && r = .string)

/-- Shallow embedding of `SemanticAnalyzer.visit_Assignment` (mj_sema.py
lines 797-811) after both sides have been typed: the check succeeds with the
left type iff `is_type_compatible(lvalue_type, rvalue_type)`, otherwise the
analysis fails with `ASSIGN_TYPE_MISMATCH`. -/
def visit_Assignment (env : ClassEnv) (ltype rtype : MJType) :
    Except SemErr MJType :=
  if is_type_compatible env ltype rtype then .ok ltype
  else .error .ASSIGN_TYPE_MISMATCH

/-! ## Binary and unary operator checking -/

/-- Shallow embedding of `SemanticAnalyzer.visit_BinaryOp` (mj_sema.py lines
814-853) after both operands have been typed.  The analyzer checks
`is_type_compatible(ltype, rtype)` (not type identity), then consults
`ltype.binary_ops`, `ltype.rel_ops`, and finally the logical operators. -/
def visit_BinaryOp (env : ClassEnv) (op : String) (ltype rtype : MJType) :
    Except SemErr MJType :=
  if ¬ is_type_compatible env ltype rtype then
    .error .BINARY_EXPRESSION_TYPE_MISMATCH
  else if op ∈ binary_ops ltype then .ok ltype
  else if op ∈ rel_ops ltype then .ok .boolean
  else if op = "&&" ∨ op = "||" then
    if ltype = .boolean then .ok .boolean
    else .error .UNSUPPORTED_BINARY_OPERATION
  else .error .UNSUPPORTED_BINARY_OPERATION

/-- Shallow embedding of `SemanticAnalyzer.visit_UnaryOp` (mj_sema.py lines
856-884) after the operand has been typed: `!` demands `boolean`, `-` and `+`
demand `int`; anything else is `UNSUPPORTED_UNARY_OPERATION`. -/
def sema_visit_UnaryOp (op : String) (t : MJType) : Except SemErr MJType :=
  if op = "!" then
    if t = .boolean then .ok .boolean else .error .UNSUPPORTED_UNARY_OPERATION
  else if op = "-" ∨ op = "+" then
    if t = .int then .ok .int else .error .UNSUPPORTED_UNARY_OPERATION
  else .error .UNSUPPORTED_UNARY_OPERATION

/-! ## Constant annotation (SemanticAnalyzer.visit_Constant, mj_sema.py lines
1090-1106)

The `type` slot of a `Constant` node holds the parser's tag string before
analysis and the resolved `MJType` afterwards; the visitor overwrites it in
place.  A constant's `value` is the Python payload as the parser built it:
an `int` for integer literals, a `str` for char and string literals. -/

inductive PyVal where
  | pyBool (b : Bool)
  | pyInt (n : Int)
  | pyStr (s : String)
  deriving DecidableEq, Repr

inductive TypeSlot where
  | tag (s : String)
  | resolved (t : MJType)
  deriving DecidableEq, Repr

/-- Shallow embedding of `SemanticAnalyzer.visit_Constant` (mj_sema.py lines
1090-1106).  `isinstance(value, bool)` is tested before `isinstance(value,
int)`; for a `str` payload the visitor compares the current `type` slot
against the string `'char'` with `==`, which is only true while the slot
still holds the parser's tag. -/
def sema_visit_Constant (value : PyVal) (slot : TypeSlot) : TypeSlot :=
  match value with
  | .pyBool _ => .resolved .boolean
  | .pyInt _ => .resolved .int
  | .pyStr _ =>
    if slot = .tag "char" then .resolved .char else .resolved .string

/-- Shallow embedding of `SemanticAnalyzer.visit_This` (mj_sema.py lines
1109-1113): the node is annotated with `ObjectType(current_class_name)`
unconditionally; the visitor performs no context check of any kind. -/
def sema_visit_This (currentClassName : String) : Except SemErr MJType :=
  .ok (.object currentClassName)

/-! ## Scoped symbol table (mj_sema.py lines 68-101)

A `ScopedSymbolTable` holds a list of `SymbolTable` frames; Python keeps the
innermost frame at the END of `scope_stack` and iterates it reversed, so the
embedding keeps the innermost frame at the HEAD of the list.  `add` writes
into the innermost frame (dict assignment: a later binding shadows an earlier
one of the same name, which a head-first association list reproduces). -/

abbrev Frame := List (String × MJType)

abbrev Scope := List Frame

def frameLookup (f : Frame) (n : String) : Option MJType :=
  (f.find? (fun p => p.1 = n)).map (·.2)

/-- Lookup walks the frames innermost outward (mj_sema.py lines 89-98). -/
def scopeLookup : Scope → String → Option MJType
  | [], _ => none
  | f :: fs, n =>
    match frameLookup f n with
    | some t => some t
    | none => scopeLookup fs n

/-- Membership test against only the innermost frame (mj_sema.py lines
100-101, `lookup_in_current_scope`). -/
def lookup_in_current_scope (sc : Scope) (n : String) : Bool :=
  match sc with
  | [] => false
  | f :: _ => (frameLookup f n).isSome

/-- Insertion into the innermost frame (mj_sema.py lines 85-87). -/
def scopeAdd (sc : Scope) (n : String) (t : MJType) : Scope :=
  match sc with
  | [] => [[(n, t)]]
  | f :: fs => ((n, t) :: f) :: fs

def pushScope (sc : Scope) : Scope := [] :: sc

def popScope (sc : Scope) : Scope := sc.tail

/-! ## Analyzer fragment: expressions and statements

The fragment covers the node kinds the claims mention.  Expression visits
return the resolved type and do not change the scope; statement visits thread
the scope.  Field order inside a visit follows the source. -/

inductive SExpr where
  | const (value : PyVal) (tag : String)
  | ident (name : String)
  | ethis
  | unary (op : String) (e : SExpr)
  | binary (op : String) (l r : SExpr)
  | assign (lv rv : SExpr)
  deriving DecidableEq, Repr

/-- Resolved type a first visit gives a `Constant` node (its slot still holds
the parser's tag). -/
def constType (v : PyVal) (tag : String) : MJType :=
  match v with
  | .pyBool _ => .boolean
  | .pyInt _ => .int
  | .pyStr _ => if tag = "char" then .char else .string

theorem sema_visit_Constant_first_run (v : PyVal) (tag : String) :
    sema_visit_Constant v (.tag tag) = .resolved (constType v tag) := by
  cases v <;> simp [sema_visit_Constant, constType, apply_ite]

/-- Analyzer context: the global class table and `current_class_name`. -/
structure SCtx where
  env : ClassEnv
  currentClass : String
  deriving Repr

/-- Shallow embedding of the analyzer's expression dispatch for the fragment:
`visit_Constant`, `visit_ID` (mj_sema.py lines 1116-1128), `visit_This`,
`visit_UnaryOp`, `visit_BinaryOp` (the right operand is visited first, lines
817-818), `visit_Assignment` (the right side is visited first, lines
800-801). -/
def semaExpr (ctx : SCtx) (sc : Scope) : SExpr → Except SemErr MJType
  | .const v tag => .ok (constType v tag)
  | .ident n =>
    match scopeLookup sc n with
    | some t => .ok t
    | none => .error .UNDECLARED_NAME
  | .ethis => sema_visit_This ctx.currentClass
  | .unary op e => do
    let t ← semaExpr ctx sc e
    sema_visit_UnaryOp op t
  | .binary op l r => do
    let rt ← semaExpr ctx sc r
    let lt ← semaExpr ctx sc l
    visit_BinaryOp ctx.env op lt rt
  | .assign lv rv => do
    let rt ← semaExpr ctx sc rv
    let lt ← semaExpr ctx sc lv
    visit_Assignment ctx.env lt rt

/-- Shallow embedding of `SemanticAnalyzer.visit_VarDecl` (mj_sema.py lines
458-499): resolve the declared type (typemap first, then the global class
table, failing `UNDECLARED_CLASS`), reject a name already present in the
innermost scope with `ALREADY_DECLARED_NAME`, check the initializer type with
`is_type_compatible` failing `ASSIGN_TYPE_MISMATCH`, then record the
variable. -/
def sema_visit_VarDecl (ctx : SCtx) (sc : Scope) (tyName name : String)
    (initE : Option SExpr) : Except SemErr Scope := do
  let declared ←
    match typemap tyName with
    | some t => Except.ok t
    | none =>
      if (lookupClass ctx.env tyName).isSome then Except.ok (MJType.object tyName)
      else Except.error SemErr.UNDECLARED_CLASS
  if lookup_in_current_scope sc name then
    Except.error SemErr.ALREADY_DECLARED_NAME
  else
    match initE with
    | none => Except.ok (scopeAdd sc name declared)
    | some e => do
      let et ← semaExpr ctx sc e
      if is_type_compatible ctx.env declared et then
        Except.ok (scopeAdd sc name declared)
      else Except.error SemErr.ASSIGN_TYPE_MISMATCH

inductive SStmt where
  | localVar (tyName name : String) (initE : Option SExpr)
  | exprStmt (e : SExpr)
  deriving DecidableEq, Repr

def semaStmt (ctx : SCtx) (sc : Scope) : SStmt → Except SemErr Scope
  | .localVar ty n initE => sema_visit_VarDecl ctx sc ty n initE
  | .exprStmt e => do
    let _ ← semaExpr ctx sc e
    .ok sc

def semaStmts (ctx : SCtx) (sc : Scope) : List SStmt → Except SemErr Scope
  | [] => .ok sc
  | s :: ss => do semaStmts ctx (← semaStmt ctx sc s) ss

/-! ## Analyzer pass over class declarations (fields)

`SemanticAnalyzer.visit_ClassDecl` (mj_sema.py lines 422-455) sets
`current_class_name`, checks the class is registered, then visits every field
with `visit_VarDecl` WITHOUT pushing a scope for the class: all fields of all
classes land in the one scope frame the analyzer creates at construction
(`self.scope = ScopedSymbolTable()`, line 334, which pushes a single
frame). -/

structure SField where
  tyName : String
  name : String
  init : Option SExpr
  deriving DecidableEq, Repr

structure SClassDecl where
  name : String
  fields : List SField
  deriving DecidableEq, Repr

def sema_visit_ClassFields (ctx : SCtx) (sc : Scope) :
    List SField → Except SemErr Scope
  | [] => .ok sc
  | f :: fs => do
    sema_visit_ClassFields ctx (← sema_visit_VarDecl ctx sc f.tyName f.name f.init) fs

/-- Shallow embedding of `SemanticAnalyzer.visit_ClassDecl` restricted to the
field sweep (mj_sema.py lines 422-448; the method sweep pushes and pops
balanced scopes and is orthogonal to the field bindings). -/
def sema_visit_ClassDecl (env : ClassEnv) (sc : Scope) (c : SClassDecl) :
    Except SemErr Scope :=
  if (lookupClass env c.name).isSome then
    sema_visit_ClassFields ⟨env, c.name⟩ sc c.fields
  else .error .UNDECLARED_CLASS

/-- Shallow embedding of `SemanticAnalyzer.visit_Program` (mj_sema.py lines
399-419): the duplicate-class sweep, then every class declaration in order,
all sharing the analyzer's single scope. -/
def sema_visit_Program (env : ClassEnv) (classes : List SClassDecl) :
    Except SemErr Scope :=
  let rec dupCheck (seen : List String) : List SClassDecl → Except SemErr Unit
    | [] => .ok ()
    | c :: cs =>
      if c.name ∈ seen then .error .ALREADY_DECLARED_CLASS
      else dupCheck (c.name :: seen) cs
  let rec visitAll (sc : Scope) : List SClassDecl → Except SemErr Scope
    | [] => .ok sc
    | c :: cs => do visitAll (← sema_visit_ClassDecl env sc c) cs
  do
    dupCheck [] classes
    visitAll [[]] classes

/-- Shallow embedding of `SemanticAnalyzer.visit_MainMethodDecl` (mj_sema.py
lines 551-602) restricted to the scope/body part: push a scope, bind the
`args` parameter to the type recorded by the builder, visit the body, pop.
No statement in the body is treated specially because it occurs in `main`. -/
def sema_visit_MainMethodDecl (ctx : SCtx) (sc : Scope) (argsName : String)
    (mainParamType : MJType) (body : List SStmt) : Except SemErr Scope := do
  let sc1 := scopeAdd (pushScope sc) argsName mainParamType
  let sc2 ← semaStmts ctx sc1 body
  .ok (popScope sc2)

/-! ## Symbol table builder: the main method (SymbolTableBuilder, mj_sema.py
lines 304-319) -/

/-- Shallow embedding of `SymbolTableBuilder.visit_MainMethodDecl` (mj_sema.py
lines 304-319): after the duplicate check, the builder records
`MethodType(self.typemap["void"], [self.typemap["String"]])` — the source
comment on line 316 reads `String[] args`, but the key indexed is
`"String"`, whose typemap image is `StringType`, not `StringArrayType`. -/
def builder_visit_MainMethodDecl (alreadyDeclared : Bool) :
    Except SemErr MethodType :=
  if alreadyDeclared then .error .ALREADY_DECLARED_METHOD
  else .ok ⟨.void, [.string]⟩

/-- Modelled from the spec: `main : void(String[])` (§4.1 item 3). -/
def specMainSignature : MethodType := ⟨.void, [.stringArr]⟩

/-! ## MJIR instructions (mj_code_aux.py)

The generator emits Python tuples whose first component is an opcode string
built by concatenation, e.g. `f"store_{var_type}"`.  The embedding keeps the
opcode structured (family plus type suffix) together with a renderer giving
the exact source string, and keeps the remaining operands as strings. -/

inductive Opcode where
  | defineOp (retTy : String)
  | labelMark (l : String)
  | alloc (ty : String)
  | store (ty : String)
  | load (ty : String)
  | loadAddr
  | literal (ty : String)
  | binArith (s : String)
  | notBool
  | param (ty : String)
  | call (suffix : String)
  | returnOp (ty : Option String)
  | jump
  | cbranch
  | printOp (ty : String)
  | globalString
  deriving DecidableEq, Repr

/-- Exact opcode string of the Python tuple each `Opcode` stands for. -/
def Opcode.render : Opcode → String
  | .defineOp t => "define_" ++ t
  | .labelMark l => l ++ ":"
  | .alloc t => "alloc_" ++ t
  | .store t => "store_" ++ t
  | .load t => "load_" ++ t
  | .loadAddr => "load_addr"
  | .literal t => "literal_" ++ t
  | .binArith s => s
  | .notBool => "not_boolean"
  | .param t => "param_" ++ t
  | .call s => "call_" ++ s
  | .returnOp none => "return_void"
  | .returnOp (some t) => "return_" ++ t
  | .jump => "jump"
  | .cbranch => "cbranch"
  | .printOp t => "print_" ++ t
  | .globalString => "global_String"

structure Instr where
  op : Opcode
  args : List String
  deriving DecidableEq, Repr

/-- Basic block: label attribute plus the ordered instruction list (the label
pseudo-instruction is also appended into the list, as the source does). -/
structure BBlock where
  label : String
  instrs : List Instr
  deriving DecidableEq, Repr

/-- Errors raised by the generator: Python `AttributeError` (reading a
missing attribute such as `node.expr.lvalue`) versus an explicit
`raise Exception(...)`. -/
inductive CGErr where
  | attributeError
  | exception (msg : String)
  deriving DecidableEq, Repr

/-- Generator state during one method (`CodeGenerator`, mj_code_aux.py lines
28-57): the per-method temporary counter `versions[fname]`, the global
counter `versions["_glob_"]`, the already-closed blocks in emission order,
the current block (label and instructions), the text section (later
insertions go to the FRONT, as `self.text.insert(0, ...)` does), the variable
to register map `name_map`, the return slot, and the exit label. -/
structure CGState where
  counter : Nat
  globCounter : Nat
  finished : List BBlock
  curLabel : String
  cur : List Instr
  text : List Instr
  nameMap : List (String × String)
  returnReg : Option String
  exitLabel : String
  deriving DecidableEq, Repr

/-- Python `new_temp` (mj_code_aux.py lines 65-74). -/
def new_temp (st : CGState) : String × CGState :=
  ("%" ++ toString st.counter, { st with counter := st.counter + 1 })

def emitI (i : Instr) (st : CGState) : CGState :=
  { st with cur := st.cur ++ [i] }

/-- Close the current block and start a fresh one; models the reassignment of
`self.current_block` in the source (the closed block is retained in the order
`EmitBlocks` will later walk the `next_block` chain). -/
def closeAndStart (newLabel : String) (st : CGState) : CGState :=
  { st with
    finished := st.finished ++ [⟨st.curLabel, st.cur⟩]
    curLabel := newLabel
    cur := [] }

/-- Python dict `name_map` lookup; insertions cons at the head, so the first
match is the most recent binding. -/
def lookupName (m : List (String × String)) (n : String) : Option String :=
  (m.find? (fun p => p.1 = n)).map (·.2)

/-- Python `op_map` of `visit_BinaryOp` (mj_code_aux.py lines 837-851). -/
def op_map : String → Option String
  | "+" => some "add_int"
  | "-" => some "sub_int"
  | "*" => some "mul_int"
  | "/" => some "div_int"
  | "%" => some "mod_int"
  | "==" => some "eq_int"
  | "!=" => some "ne_int"
  | "<" => some "lt_int"
  | "<=" => some "le_int"
  | ">" => some "gt_int"
  | ">=" => some "ge_int"
  | "&&" => some "and_boolean"
  | "||" => some "or_boolean"
  | _ => none

/-- Python membership test `'.' in reg` on a string. -/
def hasDotChar (s : String) : Bool :=
  s.data.contains '.'

/-- Python `s.startswith(p)`. -/
def strStarts (s p : String) : Bool :=
  p.data.isPrefixOf s.data

/-- Python `s.endswith(p)`. -/
def strEnds (s p : String) : Bool :=
  p.data.isSuffixOf s.data

/-- Python helper `needs_load` inside `visit_BinaryOp` (mj_code_aux.py lines
821-822). -/
def needsLoad (reg : String) : Bool :=
  hasDotChar reg || strStarts reg "%this."

/-! ## Generator AST fragment

The fragment carries the `type`/`mj_type` slots the semantic analyzer left on
the nodes the generator reads them from.  `binary` carries its operand and
result types (the generator reads `node.lvalue.type`, `node.rvalue.type` and
`node.type`); `unary` and `assignE` nodes carry none because the analyzer
sets no `type` on them (mj_sema.py `visit_UnaryOp` and `visit_Assignment`
return a type but never assign `node.type`).  Method-call receivers are
restricted to identifiers, the `isinstance(node.object, ID)` fast path of
`visit_MethodCall`.  Lists are a mutually inductive copy of `List` so that
the lowering functions are structurally recursive (and kernel-computable).

Source coordinates never influence any emitted opcode or control path, so
they are not tracked; the only coordinate access that matters is the
`node.expr.lvalue.coord` attribute read in `visit_Assert`, modelled by
`hasLvalueAttr`. -/

mutual
inductive GExpr where
  | cint (n : Int)
  | ident (name : String) (ty : MJType)
  | gthis
  | unary (op : String) (e : GExpr)
  | binary (op : String) (l r : GExpr) (lty rty resTy : MJType)
  | assignE (lvName : String) (rv : GExpr) (lvTy : MJType)
  | mcall (recvName mname : String) (args : GExprList) (retTy : MJType)
  deriving DecidableEq, Repr

inductive GExprList where
  | nil
  | cons (a : GExpr) (rest : GExprList)
  deriving DecidableEq, Repr
end

def GExprList.toList : GExprList → List GExpr
  | .nil => []
  | .cons a rest => a :: rest.toList

/-- Resolved `type` attribute of a fragment node after semantic analysis
(`none` models the attribute being absent or `None`). -/
def gtype : GExpr → Option MJType
  | .cint _ => some .int
  | .ident _ ty => some ty
  | .gthis => none
  | .unary _ _ => none
  | .binary _ _ _ _ _ resTy => some resTy
  | .assignE _ _ _ => none
  | .mcall _ _ _ retTy => some retTy

/-- Nodes carrying an `lvalue` attribute: `BinaryOp` and `Assignment`.  Every
other expression node makes `node.expr.lvalue` raise `AttributeError`. -/
def hasLvalueAttr : GExpr → Bool
  | .binary _ _ _ _ _ _ => true
  | .assignE _ _ _ => true
  | _ => false

mutual
inductive GStmt where
  | compound (ss : GStmtList)
  | exprStmt (e : GExpr)
  | retStmt (e : Option GExpr)
  | assertStmt (e : GExpr)
  deriving DecidableEq, Repr

inductive GStmtList where
  | nil
  | cons (s : GStmt) (rest : GStmtList)
  deriving DecidableEq, Repr
end

/-! ## Expression lowering (mj_code_aux.py)

`lowerExpr` takes a flag telling whether the node's `parent` attribute is a
`BinaryOp` whose operator is `==` (`visit_BinaryOp` stores the parent on both
children before visiting them and the child consults it for the `*`-result
load quirk on lines 860-865; no other visitor sets `parent`).  The returned
location is the node's `gen_loc` (`none` both for an explicit `None` and for
the attribute never being set: every caller in the embedded fragment treats
the two alike, raising on either). -/

/-- Tail of `visit_BinaryOp` (mj_code_aux.py lines 820-865) once both operand
locations are known: load either operand if `needs_load`, draw the result
temporary, map the operator, emit the arithmetic instruction, and apply the
`*`-under-`==` result-load quirk. -/
def binOpTail (pEq : Bool) (op : String) (lty rty resTy : MJType)
    (left0 right0 : String) (st : CGState) :
    Except CGErr (Option String × CGState) :=
  let (left, st) :=
    if needsLoad left0 then
      let (t, st) := new_temp st
      (t, emitI ⟨.load lty.typename, [left0, t]⟩ st)
    else (left0, st)
  let (right, st) :=
    if needsLoad right0 then
      let (t, st) := new_temp st
      (t, emitI ⟨.load rty.typename, [right0, t]⟩ st)
    else (right0, st)
  let (result, st) := new_temp st
  match op_map op with
  | none => .error (.exception ("Unsupported binary operator: " ++ op))
  | some instr =>
    let st := emitI ⟨.binArith instr, [left, right, result]⟩ st
    if op == "*" && pEq then
      let (loaded, st) := new_temp st
      .ok (some loaded, emitI ⟨.load resTy.typename, [result, loaded]⟩ st)
    else .ok (some result, st)

mutual

def lowerExpr (pEq : Bool) (e : GExpr) (st : CGState) :
    Except CGErr (Option String × CGState) :=
  match e with
  | .cint n =>
    -- visit_Constant, int branch (lines 1097-1099)
    let (t, st) := new_temp st
    .ok (some t, emitI ⟨.literal "int", [toString n, t]⟩ st)
  | .ident x ty =>
    -- visit_ID (lines 1131-1154)
    match lookupName st.nameMap x with
    | none => .error (.exception ("ID " ++ x ++ " not found in current scope"))
    | some r =>
      let reg := if strStarts r "%" then r else "%" ++ r
      if strEnds ty.typename "[]" then .ok (some reg, st)
      else if ty.typename ∉ (["int", "boolean", "char"] : List String) then
        .ok (some reg, st)
      else
        let (t, st) := new_temp st
        .ok (some t, emitI ⟨.load ty.typename, [reg, t]⟩ st)
  | .gthis => .ok (some "%this", st)
  | .unary op e1 =>
    -- visit_UnaryOp (lines 867-892)
    match lowerExpr false e1 st with
    | .error err => .error err
    | .ok (none, _) => .error (.exception "UnaryOp: expr has no gen_loc.")
    | .ok (some operand, st) =>
      if op = "!" then
        let (loaded, st) := new_temp st
        let st := emitI ⟨.load "boolean", [operand, loaded]⟩ st
        let (result, st) := new_temp st
        .ok (some result, emitI ⟨.notBool, [loaded, result]⟩ st)
      else if op = "-" then
        let (zero, st) := new_temp st
        let st := emitI ⟨.literal "int", ["0", zero]⟩ st
        let (result, st) := new_temp st
        .ok (some result, emitI ⟨.binArith "sub_int", [zero, operand, result]⟩ st)
      else .error (.exception ("Unsupported unary operator: " ++ op))
  | .binary op l r lty rty resTy =>
    -- visit_BinaryOp (lines 798-865): for == the right operand is visited
    -- first; both children see this node as parent.
    let childPEq : Bool := op == "=="
    let both : Except CGErr (Option String × Option String × CGState) :=
      if childPEq then
        match lowerExpr childPEq r st with
        | .error err => .error err
        | .ok (rloc, st1) =>
          match lowerExpr childPEq l st1 with
          | .error err => .error err
          | .ok (lloc, st2) => .ok (lloc, rloc, st2)
      else
        match lowerExpr childPEq l st with
        | .error err => .error err
        | .ok (lloc, st1) =>
          match lowerExpr childPEq r st1 with
          | .error err => .error err
          | .ok (rloc, st2) => .ok (lloc, rloc, st2)
    match both with
    | .error err => .error err
    | .ok (none, _, _) => .error (.exception "BinaryOp: lvalue has no gen_loc.")
    | .ok (some _, none, _) => .error (.exception "BinaryOp: rvalue has no gen_loc.")
    | .ok (some left0, some right0, st) =>
      binOpTail pEq op lty rty resTy left0 right0 st
  | .assignE lvName rv lvTy =>
    -- visit_Assignment, ID-lvalue branch (lines 717-751 and 796)
    match lowerExpr false rv st with
    | .error err => .error err
    | .ok (none, _) => .error (.exception "Assignment: rvalue has no gen_loc")
    | .ok (some value0, st) =>
      let value_type :=
        match gtype rv with
        | some t => t.typename
        | none => lvTy.typename
      let (value, st) :=
        if hasDotChar value0 then
          let (t, st) := new_temp st
          (t, emitI ⟨.load value_type, [value0, t]⟩ st)
        else (value0, st)
      let raw := (lookupName st.nameMap lvName).getD lvName
      let reg := if strStarts raw "%" then raw else "%" ++ raw
      let st := emitI ⟨.store value_type, [value, reg]⟩ st
      .ok (none, st)
  | .mcall recv m args retTy =>
    -- visit_MethodCall, ID-receiver path (lines 958-1014)
    let recvLoc := (lookupName st.nameMap recv).getD ("%" ++ recv)
    let callLabel := recvLoc ++ "." ++ m
    match lowerArgs args st [] with
    | .error err => .error err
    | .ok (prs, st) =>
      let st := { st with cur := st.cur ++ prs.map (fun pr => ⟨.param pr.2, [pr.1]⟩) }
      if retTy.typename ≠ "void" then
        let (t, st) := new_temp st
        .ok (some t, emitI ⟨.call "int", [callLabel, t]⟩ st)
      else
        let (dummy, st) := new_temp st
        .ok (none, emitI ⟨.call "void", [callLabel, dummy]⟩ st)

/-- Argument loop of `visit_MethodCall` (mj_code_aux.py lines 980-999): each
argument is lowered in order; a missing `gen_loc` or missing `type` raises. -/
def lowerArgs (as0 : GExprList) (st : CGState) (acc : List (String × String)) :
    Except CGErr (List (String × String) × CGState) :=
  match as0 with
  | .nil => .ok (acc, st)
  | .cons a rest =>
    match lowerExpr false a st with
    | .error err => .error err
    | .ok (none, _) => .error (.exception "Argumento da chamada de metodo sem gen_loc")
    | .ok (some loc, st1) =>
      match gtype a with
      | none => .error (.exception "Argumento da chamada de metodo sem tipo")
      | some t => lowerArgs rest st1 (acc ++ [(loc, t.typename)])

end

/-! ## Statement lowering -/

mutual

def lowerStmt (s : GStmt) (st : CGState) : Except CGErr CGState :=
  match s with
  | .compound ss => lowerStmts ss st
  | .exprStmt e =>
    match lowerExpr false e st with
    | .error err => .error err
    | .ok (_, st) => .ok st
  | .retStmt e? =>
    -- visit_Return (mj_code_aux.py lines 690-715)
    match e? with
    | some e =>
      match lowerExpr false e st with
      | .error err => .error err
      | .ok (none, _) => .error (.exception "Return: expressao sem gen_loc")
      | .ok (some value, st) =>
        match gtype e with
        | none => .error (.exception "Return: tipo de retorno nao encontrado")
        | some ty =>
          match st.returnReg with
          | none => .error (.exception "Return: return_reg nao definido para metodo com retorno.")
          | some rr =>
            let st := emitI ⟨.store ty.typename, [value, rr]⟩ st
            .ok (emitI ⟨.jump, ["%" ++ st.exitLabel]⟩ st)
    | none => .ok (emitI ⟨.returnOp none, []⟩ st)
  | .assertStmt e =>
    -- visit_Assert (mj_code_aux.py lines 644-682): the failure string is
    -- built from node.expr.lvalue.coord BEFORE the expression is visited.
    if ¬ hasLvalueAttr e then .error .attributeError
    else
      let strLabel := "@.str." ++ toString st.globCounter
      let st := { st with
        globCounter := st.globCounter + 1
        text := ⟨.globalString, [strLabel, "assertion_fail"]⟩ :: st.text }
      match lowerExpr false e st with
      | .error err => .error err
      | .ok (none, _) => .error (.exception "Assert: expression has no gen_loc")
      | .ok (some cond, st) =>
        let st := emitI ⟨.cbranch, [cond, "%assert.true", "%assert.false"]⟩ st
        let st := closeAndStart "assert.false" st
        let st := emitI ⟨.labelMark "assert.false", []⟩ st
        let st := emitI ⟨.printOp "string", [strLabel]⟩ st
        let st := emitI ⟨.jump, ["%" ++ st.exitLabel]⟩ st
        let st := closeAndStart "assert.true" st
        .ok (emitI ⟨.labelMark "assert.true", []⟩ st)

def lowerStmts (ss : GStmtList) (st : CGState) : Except CGErr CGState :=
  match ss with
  | .nil => .ok st
  | .cons s rest =>
    match lowerStmt s st with
    | .error err => .error err
    | .ok st1 => lowerStmts rest st1

end

/-! ## Method lowering (visit_MethodDecl, mj_code_aux.py lines 278-354) -/

structure GMethod where
  className : String
  mname : String
  retTyName : String
  params : List (String × String)
  body : GStmt
  deriving DecidableEq, Repr

/-- Rendered parameter list operand of the `define` instruction. -/
def renderParams (params : List (String × String)) : List String :=
  params.enum.map (fun p => p.2.1 ++ " %" ++ toString (p.1 + 1))

/-- Parameter allocation and store loop of `visit_MethodDecl` (mj_code_aux.py
lines 327-333): one `alloc` and one `store` per parameter, in order. -/
def paramSetup (l : List (Nat × (String × String))) (st : CGState) : CGState :=
  l.foldl
    (fun st p =>
      emitI ⟨.store p.2.1, ["%" ++ toString (p.1 + 1), "%" ++ p.2.2]⟩
        (emitI ⟨.alloc p.2.1, ["%" ++ p.2.2]⟩ st))
    st

/-- State and prolog of `visit_MethodDecl` before the body is visited (lines
284-333): the counter starts at `len(params) + 2` for non-void methods and
`len(params) + 1` for void ones; the return slot is then drawn from
`new_temp`; every parameter is allocated and stored into its named
register. -/
def methodProlog (g0 : Nat) (m : GMethod) : CGState :=
  let fname := "@" ++ m.className ++ "." ++ m.mname
  let nm1 := m.params.enum.map (fun p => (p.2.2, "%" ++ toString (p.1 + 1)))
  let nm2 := m.params.foldl (fun acc p => (p.2, "%" ++ p.2) :: acc) nm1
  let st : CGState :=
    { counter := m.params.length + (if m.retTyName ≠ "void" then 2 else 1)
      globCounter := g0
      finished := []
      curLabel := m.mname ++ ".entry"
      cur := []
      text := []
      nameMap := nm2
      returnReg := none
      exitLabel := "exit" }
  let st := emitI ⟨.defineOp m.retTyName, fname :: renderParams m.params⟩ st
  let st := emitI ⟨.labelMark "entry", []⟩ st
  let st :=
    if m.retTyName ≠ "void" then
      let (rr, st) := new_temp st
      let st := emitI ⟨.alloc m.retTyName, [rr]⟩ st
      { st with returnReg := some rr }
    else st
  paramSetup m.params.enum st

/-- Jump to `exit` at the end of the body unless the current block already
ends in a jump (mj_code_aux.py lines 339-341). -/
def ensureJump (st : CGState) : CGState :=
  match st.cur.getLast? with
  | none => emitI ⟨.jump, ["%" ++ st.exitLabel]⟩ st
  | some i =>
    if i.op ≠ .jump then emitI ⟨.jump, ["%" ++ st.exitLabel]⟩ st else st

/-- Body of the exit block (mj_code_aux.py lines 344-352): load the return
slot and return it, or return void when there is no slot. -/
def exitEpilogue (retTyName : String) (st : CGState) : CGState :=
  match st.returnReg with
  | some rr =>
    let (t, st) := new_temp st
    emitI ⟨.returnOp (some retTyName), [t]⟩ (emitI ⟨.load retTyName, [rr, t]⟩ st)
  | none => emitI ⟨.returnOp none, []⟩ st

/-- Shallow embedding of `visit_MethodDecl` (mj_code_aux.py lines 278-354):
prolog, body, a jump to `exit` unless the block already ends in one, then the
single exit block that loads the return slot and returns (or returns void). -/
def genMethod (g0 : Nat) (m : GMethod) : Except CGErr (List BBlock) :=
  match lowerStmt m.body (methodProlog g0 m) with
  | .error err => .error err
  | .ok st1 =>
    let st3 := emitI ⟨.labelMark "exit", []⟩ (closeAndStart "exit" (ensureJump st1))
    .ok (closeAndStart "" (exitEpilogue m.retTyName st3)).finished

instance {ε α : Type} [DecidableEq ε] [DecidableEq α] : DecidableEq (Except ε α) :=
  fun a b =>
    match a, b with
    | .ok x, .ok y =>
      if h : x = y then .isTrue (by rw [h]) else .isFalse (fun hh => h (Except.ok.inj hh))
    | .error x, .error y =>
      if h : x = y then .isTrue (by rw [h]) else .isFalse (fun hh => h (Except.error.inj hh))
    | .ok _, .error _ => .isFalse (fun hh => Except.noConfusion hh)
    | .error _, .ok _ => .isFalse (fun hh => Except.noConfusion hh)

/-! # Theorems

The development below settles the claims.  Helper lemmas come first; each
claim then gets exactly one theorem (with a witness or counterexample where
required). -/

/-- The superclass walk of `is_type_compatible` hits `target` exactly when
`target` occurs in the superclass chain of `cur`. -/
theorem superChainHits_true_iff (env : ClassEnv) (fuel : Nat) (cur target : String) :
    superChainHits env fuel cur target = true ↔
      target ∈ superclassChain env fuel cur := by
  induction fuel generalizing cur with
  | zero => simp [superChainHits, superclassChain]
  | succ n ih =>
    simp only [superChainHits, superclassChain]
    cases h : lookupClass env cur with
    | none => simp
    | some ci =>
      cases hs : ci.superName with
      | none => simp [hs]
      | some s =>
        by_cases hst : s = target
        · simp [hs, hst]
        · simp [hs, hst, ih s, Ne.symm hst]

/-- Boolean form of `superChainHits_true_iff`. -/
theorem superChainHits_eq_mem (env : ClassEnv) (fuel : Nat) (cur target : String) :
    superChainHits env fuel cur target =
      decide (target ∈ superclassChain env fuel cur) := by
  by_cases hm : target ∈ superclassChain env fuel cur
  · rw [(superChainHits_true_iff env fuel cur target).mpr hm, decide_eq_true hm]
  · have hf : ¬ superChainHits env fuel cur target = true := fun hh =>
      hm ((superChainHits_true_iff env fuel cur target).mp hh)
    simp only [Bool.not_eq_true] at hf
    rw [hf, decide_eq_false hm]

/-- The analyzer's compatibility test agrees with the spec's wording of
assignment compatibility on every pair of types. -/
theorem is_type_compatible_eq_spec (env : ClassEnv) (l r : MJType) :
    is_type_compatible env l r = specAssignCompatible env l r := by
  unfold is_type_compatible specAssignCompatible specIsSubclass
  by_cases h : l = r
  · subst h; simp
  · cases l <;> cases r <;>
      simp_all [superChainHits_eq_mem, eq_comm]

/-- C1.  For every assignment checked by the analyzer, the check succeeds
(with the left type) iff the right type is assignment-compatible with the
left type in the spec's sense — identical types, object types with the right
class equal to or a transitive subclass of the left class, or `char[]`
receiving a `String`; in every other case the analysis fails with
`ASSIGN_TYPE_MISMATCH`. -/
theorem c1_assignment_compatibility (env : ClassEnv) (l r : MJType) :
    (visit_Assignment env l r = .ok l ↔ specAssignCompatible env l r = true) ∧
    (specAssignCompatible env l r = false →
      visit_Assignment env l r = .error .ASSIGN_TYPE_MISMATCH) := by
  unfold visit_Assignment
  rw [is_type_compatible_eq_spec]
  cases hc : specAssignCompatible env l r <;> simp

/-- Witness for C1 at a concrete incompatible pair. -/
theorem c1_assignment_compatibility_witness :
    visit_Assignment [] .int .boolean = .error .ASSIGN_TYPE_MISMATCH :=
  (c1_assignment_compatibility [] .int .boolean).2 (by rfl)

/-- C4.  The symbol-table builder records the signature of `main` as
`void(String)` — `typemap["String"]` is `StringType` — which differs from the
`void(String[])` signature the spec states. -/
theorem c4_main_signature_records_string :
    builder_visit_MainMethodDecl false = .ok ⟨.void, [.string]⟩ ∧
    (⟨.void, [.string]⟩ : MethodType) ≠ specMainSignature := by
  exact ⟨rfl, by decide⟩

/-- C5 counterexample: the analyzer does NOT raise
`BINARY_EXPRESSION_TYPE_MISMATCH` on every pair of non-identical operand
types: `char[] + String` is accepted (compatibility, not identity, is
checked) and yields `char[]`. -/
theorem c5_binary_identity_counterexample :
    ¬ (∀ (env : ClassEnv) (op : String) (l r : MJType), l ≠ r →
        visit_BinaryOp env op l r = .error .BINARY_EXPRESSION_TYPE_MISMATCH) := by
  intro h
  have h2 := h [] "+" .charArr .string (by decide)
  rw [show visit_BinaryOp [] "+" .charArr .string = .ok .charArr from rfl] at h2
  exact Except.noConfusion h2

/-- C5 amended.  The analyzer raises `BINARY_EXPRESSION_TYPE_MISMATCH` iff
the right operand type is not assignment-compatible with the left one (the
same relation assignments use, so `char[]`/`String` and subclass pairs are
accepted); on compatible operands the result is the left type when the
operator is in its `binary_ops` (note `String`'s `binary_ops` contains `==`),
else `boolean` when in its `rel_ops`, else `boolean` for `&&`/`||` on
`boolean`, else `UNSUPPORTED_BINARY_OPERATION`. -/
theorem c5_binary_check_characterization (env : ClassEnv) (op : String)
    (l r : MJType) :
    (visit_BinaryOp env op l r = .error .BINARY_EXPRESSION_TYPE_MISMATCH ↔
      specAssignCompatible env l r = false) ∧
    (specAssignCompatible env l r = true →
      visit_BinaryOp env op l r =
        if op ∈ binary_ops l then .ok l
        else if op ∈ rel_ops l then .ok .boolean
        else if op = "&&" ∨ op = "||" then
          (if l = .boolean then .ok .boolean
           else .error .UNSUPPORTED_BINARY_OPERATION)
        else .error .UNSUPPORTED_BINARY_OPERATION) := by
  unfold visit_BinaryOp
  rw [is_type_compatible_eq_spec]
  cases hc : specAssignCompatible env l r
  · simp
  · rw [if_neg (by simp)]
    constructor
    · constructor
      · intro h
        exfalso
        revert h
        split_ifs <;> simp
      · simp
    · intro _
      rfl

/-- Witness for C5 amended at `int + int`. -/
theorem c5_binary_check_witness :
    visit_BinaryOp [] "+" .int .int = .ok .int := by
  have h := (c5_binary_check_characterization [] "+" .int .int).2 (by rfl)
  simpa using h

/-- C6.  The analyzer visits class fields in one shared scope frame that is
never popped between classes (`visit_ClassDecl` pushes no scope), so two
distinct classes declaring a field of the same name make the analysis fail
with `ALREADY_DECLARED_NAME`, while the same single class is accepted. -/
theorem c6_cross_class_field_collision :
    sema_visit_Program [⟨"A", none⟩, ⟨"B", none⟩]
        [⟨"A", [⟨"int", "n", none⟩]⟩, ⟨"B", [⟨"int", "n", none⟩]⟩] =
      .error .ALREADY_DECLARED_NAME ∧
    sema_visit_Program [⟨"A", none⟩]
        [⟨"A", [⟨"int", "n", none⟩]⟩] = .ok [[("n", .int)]] := by
  exact ⟨rfl, rfl⟩

/-- C7 counterexample: annotating a char constant twice is not idempotent —
the first visit resolves the parser tag `'char'` to `CharType`, the second
compares the resolved type against the string `'char'`, fails, and rewrites
the slot to `StringType`. -/
theorem c7_idempotence_counterexample :
    ¬ (∀ (v : PyVal) (s : TypeSlot),
        sema_visit_Constant v (sema_visit_Constant v s) =
          sema_visit_Constant v s) := by
  intro h
  exact absurd (h (.pyStr "a") (.tag "char")) (by decide)

/-- C7 amended.  Re-annotating a constant is idempotent exactly when the
first visit did not produce `CharType`; a constant annotated `CharType` is
re-annotated `StringType` by a second run. -/
theorem c7_constant_second_run (v : PyVal) (s : TypeSlot) :
    (sema_visit_Constant v s ≠ .resolved .char →
      sema_visit_Constant v (sema_visit_Constant v s) =
        sema_visit_Constant v s) ∧
    (sema_visit_Constant v s = .resolved .char →
      sema_visit_Constant v (sema_visit_Constant v s) = .resolved .string) := by
  cases v with
  | pyBool b => simp [sema_visit_Constant]
  | pyInt n => simp [sema_visit_Constant]
  | pyStr str =>
    by_cases h : s = .tag "char" <;> simp [sema_visit_Constant, h]

/-- Witness for C7 amended at an int constant. -/
theorem c7_constant_second_run_witness :
    sema_visit_Constant (.pyInt 3) (sema_visit_Constant (.pyInt 3) (.tag "int")) =
      sema_visit_Constant (.pyInt 3) (.tag "int") :=
  (c7_constant_second_run (.pyInt 3) (.tag "int")).1 (by decide)

/-- C8 counterexample: a program whose `main` body uses `this` (here
`Main x = this;`) passes semantic analysis — `visit_This` performs no
static-context check, so `this` is not rejected inside `main`. -/
theorem c8_this_in_main_accepted :
    sema_visit_MainMethodDecl ⟨[⟨"Main", none⟩], "Main"⟩ [[]] "args" .string
      [.localVar "Main" "x" (some .ethis)] = .ok [[]] := by
  rfl

/-- C8 amended.  `this` is never rejected: in every context — the `main`
method included — it is annotated with `ObjectType` of the enclosing class,
and a `main` whose body is exactly `this;` passes analysis in any scope. -/
theorem c8_this_annotation (ctx : SCtx) (sc : Scope) :
    semaExpr ctx sc .ethis = .ok (.object ctx.currentClass) ∧
    (∀ (a : String) (pty : MJType),
      sema_visit_MainMethodDecl ctx sc a pty [.exprStmt .ethis] =
        .ok (popScope (scopeAdd (pushScope sc) a pty))) := by
  exact ⟨rfl, fun a pty => rfl⟩

/-! ## Code-generator claims -/

/-- Concrete generator state inside a method body, with a few local variables
in `name_map`; used by concrete instantiations below. -/
def exSt : CGState :=
  ⟨1, 0, [], "body", [], [], [("o", "%o"), ("b", "%b"), ("c", "%c")], none, "exit"⟩

/-- C9.  Unary `+` on an `int` operand passes semantic analysis (result
`int`), but the generator's `visit_UnaryOp` handles only `!` and `-`, so
lowering any unary `+` whose operand lowers successfully raises an unhandled
exception. -/
theorem c9_unary_plus_rejected_by_codegen :
    sema_visit_UnaryOp "+" .int = .ok .int ∧
    (∀ (e : GExpr) (st st2 : CGState) (loc : String),
      lowerExpr false e st = .ok (some loc, st2) →
      lowerExpr false (.unary "+" e) st =
        .error (.exception "Unsupported unary operator: +")) := by
  refine ⟨rfl, fun e st st2 loc h => ?_⟩
  simp only [lowerExpr, h]
  rfl

/-- Witness for C9: lowering `+1` inside a method body crashes. -/
theorem c9_unary_plus_witness :
    lowerExpr false (.unary "+" (.cint 1)) exSt =
      .error (.exception "Unsupported unary operator: +") :=
  c9_unary_plus_rejected_by_codegen.2 (.cint 1) exSt _ "%1" rfl

/-- `BinaryOp` nodes, the shape claim C10 singles out. -/
def isBinaryNode : GExpr → Bool
  | .binary _ _ _ _ _ _ => true
  | _ => false

/-- Successful lowering of an `Assignment` expression always reports
`gen_loc = None` (mj_code_aux.py line 796). -/
theorem lowerExpr_assign_none (pEq : Bool) (lv : String) (rv : GExpr)
    (ty : MJType) (st : CGState) (r : Option String × CGState)
    (h : lowerExpr pEq (.assignE lv rv ty) st = .ok r) : r.1 = none := by
  simp only [lowerExpr] at h
  cases hrv : lowerExpr false rv st with
  | error err => rw [hrv] at h; exact absurd h (by simp)
  | ok rr =>
    obtain ⟨loc?, st1⟩ := rr
    rw [hrv] at h
    cases loc? with
    | none => exact absurd h (by simp)
    | some v =>
      simp only [Except.ok.injEq] at h
      rw [← h]

/-- C10 counterexample: an assert whose expression is an `Assignment` (not a
`BinaryOp`) does NOT crash with an attribute error — the `Assignment` node
does carry an `lvalue` attribute, so the `node.expr.lvalue.coord` read
succeeds and the lowering instead dies later on the assignment's missing
value with a plain exception. -/
theorem c10_assert_counterexample :
    ¬ (∀ (st : CGState) (e : GExpr), isBinaryNode e = false →
        lowerStmt (.assertStmt e) st = .error .attributeError) := by
  intro h
  have h2 := h exSt (.assignE "b" (.ident "c" .boolean) .boolean) rfl
  exact absurd h2 (by decide)

/-- C10 amended.  Assert lowering succeeds only for `BinaryOp` expressions:
an expression with no `lvalue` attribute (anything but a `BinaryOp` or an
`Assignment`, e.g. `assert flag;`) crashes with an `AttributeError` from the
unconditional `node.expr.lvalue.coord` read; an `Assignment` expression
passes that read but crashes afterwards with a plain exception because
assignments produce no value. -/
theorem c10_assert_lvalue_behavior :
    (∀ (st : CGState) (e : GExpr), hasLvalueAttr e = false →
      lowerStmt (.assertStmt e) st = .error .attributeError) ∧
    (∀ (st st' : CGState) (e : GExpr),
      lowerStmt (.assertStmt e) st = .ok st' → isBinaryNode e = true) ∧
    (lowerStmt (.assertStmt (.assignE "b" (.ident "c" .boolean) .boolean)) exSt =
      .error (.exception "Assert: expression has no gen_loc")) := by
  refine ⟨fun st e he => ?_, fun st st' e h => ?_, by rfl⟩
  · simp only [lowerStmt, he]
    rfl
  · cases e with
    | binary op l r lty rty resTy => rfl
    | assignE lv rv ty =>
      exfalso
      simp only [lowerStmt, hasLvalueAttr] at h
      set st0 : CGState :=
        { st with
          globCounter := st.globCounter + 1
          text := ⟨.globalString, ["@.str." ++ toString st.globCounter,
            "assertion_fail"]⟩ :: st.text } with hst0
      cases hrv : lowerExpr false (.assignE lv rv ty) st0 with
      | error err => rw [hrv] at h; exact Except.noConfusion h
      | ok rr =>
        have hnone := lowerExpr_assign_none false lv rv ty st0 rr hrv
        obtain ⟨loc?, st1⟩ := rr
        simp only at hnone
        subst hnone
        rw [hrv] at h
        exact Except.noConfusion h
    | cint n => simp [lowerStmt, hasLvalueAttr] at h
    | ident x ty => simp [lowerStmt, hasLvalueAttr] at h
    | gthis => simp [lowerStmt, hasLvalueAttr] at h
    | unary op e1 => simp [lowerStmt, hasLvalueAttr] at h
    | mcall recv m args retTy => simp [lowerStmt, hasLvalueAttr] at h

/-- Witness for C10 amended: `assert flag;` on a boolean variable crashes
with an attribute error. -/
theorem c10_assert_lvalue_witness :
    lowerStmt (.assertStmt (.ident "b" .boolean)) exSt = .error .attributeError :=
  c10_assert_lvalue_behavior.1 exSt (.ident "b" .boolean) rfl

/-! ## Emission invariants -/

def noReturns (l : List Instr) : Prop :=
  ∀ i ∈ l, ∀ o, i.op ≠ Opcode.returnOp o

theorem noReturns_nil : noReturns [] := by intro i hi; cases hi

theorem noReturns_append {a b : List Instr} (ha : noReturns a) (hb : noReturns b) :
    noReturns (a ++ b) := by
  intro i hi o
  rcases List.mem_append.mp hi with h | h
  · exact ha i h o
  · exact hb i h o

/-- Expression lowering only appends instructions to the current block: every
other component of the block structure is untouched, and none of the appended
instructions is a return. -/
structure ExprInv (st st' : CGState) : Prop where
  finished_eq : st'.finished = st.finished
  curLabel_eq : st'.curLabel = st.curLabel
  nameMap_eq : st'.nameMap = st.nameMap
  returnReg_eq : st'.returnReg = st.returnReg
  exitLabel_eq : st'.exitLabel = st.exitLabel
  cur_ext : ∃ Δ, st'.cur = st.cur ++ Δ ∧ noReturns Δ

theorem ExprInv.erefl (st : CGState) : ExprInv st st :=
  ⟨by rfl, by rfl, by rfl, by rfl, by rfl, ⟨[], by simp, noReturns_nil⟩⟩

theorem ExprInv.etrans {s1 s2 s3 : CGState} (h1 : ExprInv s1 s2) (h2 : ExprInv s2 s3) :
    ExprInv s1 s3 := by
  obtain ⟨f1, l1, n1, r1, e1, Δ1, hc1, hr1⟩ := h1
  obtain ⟨f2, l2, n2, r2, e2, Δ2, hc2, hr2⟩ := h2
  exact ⟨f2.trans f1, l2.trans l1, n2.trans n1, r2.trans r1, e2.trans e1,
    Δ1 ++ Δ2, by rw [hc2, hc1, List.append_assoc], noReturns_append hr1 hr2⟩

theorem ExprInv.eemit {st st' : CGState} (h : ExprInv st st') (i : Instr)
    (hi : ∀ o, i.op ≠ .returnOp o) : ExprInv st (emitI i st') := by
  obtain ⟨f1, l1, n1, r1, e1, Δ1, hc1, hr1⟩ := h
  refine ⟨f1, l1, n1, r1, e1, Δ1 ++ [i], ?_, ?_⟩
  · simp [emitI, hc1]
  · refine noReturns_append hr1 ?_
    intro j hj o
    rcases List.mem_singleton.mp hj with h
    subst h
    exact hi o

theorem ExprInv.bump {st st' : CGState} (h : ExprInv st st') :
    ExprInv st (new_temp st').2 := by
  obtain ⟨f1, l1, n1, r1, e1, Δ1, hc1, hr1⟩ := h
  exact ⟨f1, l1, n1, r1, e1, Δ1, hc1, hr1⟩

/-- The binary-operation tail only appends non-return instructions. -/
theorem binOpTail_inv (pEq : Bool) (op : String) (lty rty resTy : MJType)
    (left0 right0 : String) (st : CGState) (r : Option String × CGState)
    (h : binOpTail pEq op lty rty resTy left0 right0 st = .ok r) :
    ExprInv st r.2 := by
  by_cases hL : needsLoad left0 = true
  · by_cases hR : needsLoad right0 = true
    · simp only [binOpTail, hL, hR, if_true] at h
      cases hmap : op_map op with
      | none => rw [hmap] at h; exact absurd h (by simp)
      | some instr =>
        rw [hmap] at h
        try dsimp only at h
        by_cases hq : (op == "*" && pEq) = true
        · simp only [hq, if_true, Except.ok.injEq] at h
          rw [← h]; dsimp only
          exact ((((ExprInv.erefl st).bump.eemit _ (by simp)).bump.eemit _
            (by simp)).bump.eemit _ (by simp)).bump.eemit _ (by simp)
        · simp only [hq, Bool.false_eq_true, reduceIte, Except.ok.injEq] at h
          rw [← h]; dsimp only
          exact (((ExprInv.erefl st).bump.eemit _ (by simp)).bump.eemit _
            (by simp)).bump.eemit _ (by simp)
    · simp only [binOpTail, hL, hR, if_true, Bool.false_eq_true, reduceIte] at h
      cases hmap : op_map op with
      | none => rw [hmap] at h; exact absurd h (by simp)
      | some instr =>
        rw [hmap] at h
        try dsimp only at h
        by_cases hq : (op == "*" && pEq) = true
        · simp only [hq, if_true, Except.ok.injEq] at h
          rw [← h]; dsimp only
          exact (((ExprInv.erefl st).bump.eemit _ (by simp)).bump.eemit _
            (by simp)).bump.eemit _ (by simp)
        · simp only [hq, Bool.false_eq_true, reduceIte, Except.ok.injEq] at h
          rw [← h]; dsimp only
          exact ((ExprInv.erefl st).bump.eemit _ (by simp)).bump.eemit _ (by simp)
  · by_cases hR : needsLoad right0 = true
    · simp only [binOpTail, hL, hR, if_true, Bool.false_eq_true, reduceIte] at h
      cases hmap : op_map op with
      | none => rw [hmap] at h; exact absurd h (by simp)
      | some instr =>
        rw [hmap] at h
        try dsimp only at h
        by_cases hq : (op == "*" && pEq) = true
        · simp only [hq, if_true, Except.ok.injEq] at h
          rw [← h]; dsimp only
          exact (((ExprInv.erefl st).bump.eemit _ (by simp)).bump.eemit _
            (by simp)).bump.eemit _ (by simp)
        · simp only [hq, Bool.false_eq_true, reduceIte, Except.ok.injEq] at h
          rw [← h]; dsimp only
          exact ((ExprInv.erefl st).bump.eemit _ (by simp)).bump.eemit _ (by simp)
    · simp only [binOpTail, hL, hR, Bool.false_eq_true, reduceIte] at h
      cases hmap : op_map op with
      | none => rw [hmap] at h; exact absurd h (by simp)
      | some instr =>
        rw [hmap] at h
        try dsimp only at h
        by_cases hq : (op == "*" && pEq) = true
        · simp only [hq, if_true, Except.ok.injEq] at h
          rw [← h]; dsimp only
          exact ((ExprInv.erefl st).bump.eemit _ (by simp)).bump.eemit _ (by simp)
        · simp only [hq, Bool.false_eq_true, reduceIte, Except.ok.injEq] at h
          rw [← h]; dsimp only
          exact (ExprInv.erefl st).bump.eemit _ (by simp)


mutual

theorem lowerExpr_inv (pEq : Bool) (e : GExpr) (st : CGState)
    (r : Option String × CGState) (h : lowerExpr pEq e st = .ok r) :
    ExprInv st r.2 := by
  cases e with
  | cint n =>
    simp only [lowerExpr, Except.ok.injEq] at h
    rw [← h]
    exact (ExprInv.erefl st).bump.eemit _ (by simp)
  | ident x ty =>
    simp only [lowerExpr] at h
    cases hl : lookupName st.nameMap x with
    | none => rw [hl] at h; exact absurd h (by simp)
    | some rr =>
      rw [hl] at h
      split_ifs at h <;> simp only [Except.ok.injEq] at h <;> rw [← h] <;>
        first
          | exact ExprInv.erefl st
          | exact (ExprInv.erefl st).bump.eemit _ (by simp)
  | gthis =>
    simp only [lowerExpr, Except.ok.injEq] at h
    rw [← h]
    exact ExprInv.erefl st
  | unary op e1 =>
    simp only [lowerExpr] at h
    cases hrec : lowerExpr false e1 st with
    | error err => rw [hrec] at h; exact absurd h (by simp)
    | ok rr =>
      obtain ⟨loc?, st1⟩ := rr
      rw [hrec] at h
      try dsimp only at h
      have ih := lowerExpr_inv false e1 st (loc?, st1) hrec
      cases loc? with
      | none => exact absurd h (by simp)
      | some operand =>
        split_ifs at h <;> simp only [Except.ok.injEq] at h <;> rw [← h] <;>
          exact ((ih.bump.eemit _ (by simp)).bump).eemit _ (by simp)
  | binary op l r' lty rty resTy =>
    simp only [lowerExpr] at h
    cases hpe : op == "==" with
    | true =>
      rw [hpe] at h
      simp only [if_true, reduceIte] at h
      cases h1 : lowerExpr true r' st with
      | error err => rw [h1] at h; exact absurd h (by simp)
      | ok rr1 =>
        obtain ⟨rloc, st1⟩ := rr1
        rw [h1] at h
        try dsimp only at h
        have ihr := lowerExpr_inv true r' st (rloc, st1) h1
        cases h2 : lowerExpr true l st1 with
        | error err => rw [h2] at h; exact absurd h (by simp)
        | ok rr2 =>
          obtain ⟨lloc, st2⟩ := rr2
          rw [h2] at h
          try dsimp only at h
          have ihl := lowerExpr_inv true l st1 (lloc, st2) h2
          have ih : ExprInv st st2 := ihr.etrans ihl
          cases lloc with
          | none => exact absurd h (by simp)
          | some left0 =>
            cases rloc with
            | none => exact absurd h (by simp)
            | some right0 =>
              try dsimp only at h
              exact ih.etrans (binOpTail_inv pEq op lty rty resTy left0 right0 st2 r h)
    | false =>
      rw [hpe] at h
      simp only [Bool.false_eq_true, reduceIte] at h
      cases h1 : lowerExpr false l st with
      | error err => rw [h1] at h; exact absurd h (by simp)
      | ok rr1 =>
        obtain ⟨lloc, st1⟩ := rr1
        rw [h1] at h
        try dsimp only at h
        have ihl := lowerExpr_inv false l st (lloc, st1) h1
        cases h2 : lowerExpr false r' st1 with
        | error err => rw [h2] at h; exact absurd h (by simp)
        | ok rr2 =>
          obtain ⟨rloc, st2⟩ := rr2
          rw [h2] at h
          try dsimp only at h
          have ihr := lowerExpr_inv false r' st1 (rloc, st2) h2
          have ih : ExprInv st st2 := ihl.etrans ihr
          cases lloc with
          | none => exact absurd h (by simp)
          | some left0 =>
            cases rloc with
            | none => exact absurd h (by simp)
            | some right0 =>
              try dsimp only at h
              exact ih.etrans (binOpTail_inv pEq op lty rty resTy left0 right0 st2 r h)
  | assignE lv rv ty =>
    simp only [lowerExpr] at h
    cases hrv : lowerExpr false rv st with
    | error err => rw [hrv] at h; exact absurd h (by simp)
    | ok rr =>
      obtain ⟨loc?, st1⟩ := rr
      rw [hrv] at h
      try dsimp only at h
      have ih := lowerExpr_inv false rv st (loc?, st1) hrv
      cases loc? with
      | none => exact absurd h (by simp)
      | some v =>
        by_cases hdot : hasDotChar v = true
        · simp only [hdot, if_true, Except.ok.injEq] at h
          rw [← h]; dsimp only
          split_ifs <;>
            exact ((ih.bump.eemit _ (by simp))).eemit _ (by simp)
        · simp only [hdot, Bool.false_eq_true, reduceIte, Except.ok.injEq] at h
          rw [← h]; dsimp only
          split_ifs <;>
            exact ih.eemit _ (by simp)
  | mcall recv m args retTy =>
    simp only [lowerExpr] at h
    cases hargs : lowerArgs args st [] with
    | error err => rw [hargs] at h; exact absurd h (by simp)
    | ok rr =>
      obtain ⟨prs, st1⟩ := rr
      rw [hargs] at h
      try dsimp only at h
      have ih : ExprInv st st1 := lowerArgs_inv args st [] (prs, st1) hargs
      have ihp : ExprInv st
          { st1 with cur := st1.cur ++ prs.map (fun pr => ⟨.param pr.2, [pr.1]⟩) } := by
        obtain ⟨f1, l1, n1, r1, e1, Δ1, hc1, hr1⟩ := ih
        refine ⟨f1, l1, n1, r1, e1, Δ1 ++ prs.map (fun pr => ⟨.param pr.2, [pr.1]⟩),
          by simp [hc1], noReturns_append hr1 ?_⟩
        intro i hi o
        simp only [List.mem_map] at hi
        obtain ⟨pr, _, hpr⟩ := hi
        rw [← hpr]
        simp
      by_cases hvoid : retTy.typename = "void"
      · simp only [hvoid, ne_eq, not_true_eq_false, Bool.false_eq_true, reduceIte,
          Except.ok.injEq] at h
        rw [← h]
        exact ihp.bump.eemit _ (by simp)
      · simp only [ne_eq, hvoid, not_false_eq_true, if_true, reduceIte,
          Except.ok.injEq] at h
        rw [← h]
        exact ihp.bump.eemit _ (by simp)

theorem lowerArgs_inv (as0 : GExprList) (st : CGState)
    (acc : List (String × String)) (r : List (String × String) × CGState)
    (h : lowerArgs as0 st acc = .ok r) : ExprInv st r.2 := by
  cases as0 with
  | nil =>
    simp only [lowerArgs, Except.ok.injEq] at h
    rw [← h]
    exact ExprInv.erefl st
  | cons a rest =>
    simp only [lowerArgs] at h
    cases ha : lowerExpr false a st with
    | error err => rw [ha] at h; exact absurd h (by simp)
    | ok rr =>
      obtain ⟨loc?, st1⟩ := rr
      rw [ha] at h
      try dsimp only at h
      cases loc? with
      | none => exact absurd h (by simp)
      | some loc =>
        cases hg : gtype a with
        | none => rw [hg] at h; exact absurd h (by simp)
        | some t =>
          rw [hg] at h
          try dsimp only at h
          have ih1 := lowerExpr_inv false a st (some loc, st1) ha
          have ih2 := lowerArgs_inv rest st1 (acc ++ [(loc, t.typename)]) r h
          exact ih1.etrans ih2

end


/-- The argument loop returns, appended to its accumulator, one
`(location, typename)` pair per argument, in order, each second component the
rendered `type` attribute of that argument. -/
theorem lowerArgs_spec (as0 : GExprList) (st : CGState)
    (acc : List (String × String)) (r : List (String × String) × CGState)
    (h : lowerArgs as0 st acc = .ok r) :
    ∃ prs2, r.1 = acc ++ prs2 ∧
      List.Forall₂ (fun (a : GExpr) (pr : String × String) =>
        (gtype a).map MJType.typename = some pr.2) as0.toList prs2 := by
  cases as0 with
  | nil =>
    simp only [lowerArgs, Except.ok.injEq] at h
    exact ⟨[], by rw [← h]; simp, by simp [GExprList.toList]⟩
  | cons a rest =>
    simp only [lowerArgs] at h
    cases ha : lowerExpr false a st with
    | error err => rw [ha] at h; exact absurd h (by simp)
    | ok rr =>
      obtain ⟨loc?, st1⟩ := rr
      rw [ha] at h
      try dsimp only at h
      cases loc? with
      | none => exact absurd h (by simp)
      | some loc =>
        cases hg : gtype a with
        | none => rw [hg] at h; exact absurd h (by simp)
        | some t =>
          rw [hg] at h
          try dsimp only at h
          obtain ⟨prs2, hp1, hp2⟩ :=
            lowerArgs_spec rest st1 (acc ++ [(loc, t.typename)]) r h
          refine ⟨(loc, t.typename) :: prs2, by rw [hp1]; simp, ?_⟩
          rw [GExprList.toList]
          exact List.Forall₂.cons (by simp [hg]) hp2


theorem c3_call_lowering (pEq : Bool) (recv m : String) (args : GExprList)
    (retTy : MJType) (st : CGState) (loc? : Option String) (st' : CGState)
    (h : lowerExpr pEq (.mcall recv m args retTy) st = .ok (loc?, st')) :
    ∃ evalCode prs t,
      List.Forall₂ (fun (a : GExpr) (pr : String × String) =>
        (gtype a).map MJType.typename = some pr.2) args.toList prs ∧
      st'.cur = st.cur ++ evalCode ++
        prs.map (fun pr => Instr.mk (.param pr.2) [pr.1]) ++
        [⟨.call (if retTy.typename = "void" then "void" else "int"),
          [((lookupName st.nameMap recv).getD ("%" ++ recv)) ++ "." ++ m, t]⟩] ∧
      loc? = (if retTy.typename = "void" then none else some t) := by
  simp only [lowerExpr] at h
  cases hargs : lowerArgs args st [] with
  | error err => rw [hargs] at h; exact absurd h (by simp)
  | ok rr =>
    obtain ⟨prs, st1⟩ := rr
    rw [hargs] at h
    try dsimp only at h
    have hinv : ExprInv st st1 := lowerArgs_inv args st [] (prs, st1) hargs
    obtain ⟨prs2, hp1, hp2⟩ := lowerArgs_spec args st [] (prs, st1) hargs
    simp only [List.nil_append] at hp1
    obtain ⟨Δ, hΔ, -⟩ := hinv.cur_ext
    by_cases hvoid : retTy.typename = "void"
    · simp only [hvoid, ne_eq, not_true_eq_false, Bool.false_eq_true, reduceIte,
        Except.ok.injEq, Prod.mk.injEq] at h
      obtain ⟨hloc, hst⟩ := h
      refine ⟨Δ, prs, "%" ++ toString st1.counter, by rw [hp1]; exact hp2, ?_, ?_⟩
      · rw [← hst]
        simp [emitI, new_temp, hΔ, hvoid]
      · rw [← hloc]
        simp [hvoid, new_temp]
    · simp only [ne_eq, hvoid, not_false_eq_true, if_true, reduceIte,
        Except.ok.injEq, Prod.mk.injEq] at h
      obtain ⟨hloc, hst⟩ := h
      refine ⟨Δ, prs, "%" ++ toString st1.counter, by rw [hp1]; exact hp2, ?_, ?_⟩
      · rw [← hst]
        simp [emitI, new_temp, hΔ, hvoid]
      · rw [← hloc]
        simp [hvoid, new_temp]

theorem c3_call_counterexample :
    lowerExpr false (.mcall "o" "m" .nil .boolean) exSt =
      .ok (some "%1",
        { exSt with
          counter := 2
          cur := [⟨.call "int", ["%o.m", "%1"]⟩] }) ∧
    (∀ (i : Instr), i ∈ [(⟨.call "int", ["%o.m", "%1"]⟩ : Instr)] →
      i.op ≠ .call (MJType.boolean.typename) ∧ "@C.m" ∉ i.args) := by
  constructor
  · rfl
  · decide

/-- Witness for C3 amended at a concrete no-argument boolean-returning call. -/
theorem c3_call_lowering_witness :
    ∃ evalCode prs t,
      List.Forall₂ (fun (a : GExpr) (pr : String × String) =>
        (gtype a).map MJType.typename = some pr.2) GExprList.nil.toList prs ∧
      ({ exSt with
          counter := 2
          cur := [⟨.call "int", ["%o.m", "%1"]⟩] } : CGState).cur =
        exSt.cur ++ evalCode ++
          prs.map (fun pr => Instr.mk (.param pr.2) [pr.1]) ++
          [⟨.call (if MJType.boolean.typename = "void" then "void" else "int"),
            [((lookupName exSt.nameMap "o").getD ("%" ++ "o")) ++ "." ++ "m", t]⟩] ∧
      (some "%1" : Option String) =
        (if MJType.boolean.typename = "void" then none else some t) :=
  c3_call_lowering false "o" "m" .nil .boolean exSt (some "%1") _ rfl

/-! ## Statement-level invariants -/

mutual
def hasBareReturn : GStmt → Bool
  | .compound ss => hasBareReturnL ss
  | .exprStmt _ => false
  | .retStmt none => true
  | .retStmt (some _) => false
  | .assertStmt _ => false
def hasBareReturnL : GStmtList → Bool
  | .nil => false
  | .cons s rest => hasBareReturn s || hasBareReturnL rest
end

/-- Labels of the blocks statements may open (only asserts open blocks in the
embedded fragment). -/
def stmtLabelOK (l : String) : Prop := l = "assert.true" ∨ l = "assert.false"

/-- All instructions of a state: the closed blocks' instructions in order,
then the current block's. -/
def stInstrs (st : CGState) : List Instr :=
  (st.finished.map BBlock.instrs).flatten ++ st.cur

/-- Statement lowering preserves the maps and the return slot and only adds
blocks after the existing ones: either the current block is merely extended,
or it is closed (extended by some suffix) and every newly created block wears
a statement label. -/
structure StmtInv (st st' : CGState) : Prop where
  nameMap_eq : st'.nameMap = st.nameMap
  returnReg_eq : st'.returnReg = st.returnReg
  exitLabel_eq : st'.exitLabel = st.exitLabel
  blocks :
    (st'.finished = st.finished ∧ st'.curLabel = st.curLabel ∧
      ∃ Δ, st'.cur = st.cur ++ Δ) ∨
    (∃ Δ rest, st'.finished = st.finished ++ (⟨st.curLabel, st.cur ++ Δ⟩ :: rest) ∧
      (∀ b ∈ rest, stmtLabelOK b.label) ∧ stmtLabelOK st'.curLabel)

theorem StmtInv.srefl (st : CGState) : StmtInv st st :=
  ⟨by rfl, by rfl, by rfl, Or.inl ⟨by rfl, by rfl, [], by simp⟩⟩

theorem ExprInv.toStmtInv {st st' : CGState} (h : ExprInv st st') : StmtInv st st' := by
  obtain ⟨f, l, n, r, e, Δ, hc, -⟩ := h
  exact ⟨n, r, e, Or.inl ⟨f, l, Δ, hc⟩⟩

theorem StmtInv.strans {s1 s2 s3 : CGState} (h1 : StmtInv s1 s2) (h2 : StmtInv s2 s3) :
    StmtInv s1 s3 := by
  obtain ⟨n1, r1, e1, b1⟩ := h1
  obtain ⟨n2, r2, e2, b2⟩ := h2
  refine ⟨n2.trans n1, r2.trans r1, e2.trans e1, ?_⟩
  rcases b1 with ⟨bf1, bl1, Δ1, bc1⟩ | ⟨Δ1, rest1, bf1, hr1, hl1⟩
  · rcases b2 with ⟨bf2, bl2, Δ2, bc2⟩ | ⟨Δ2, rest2, bf2, hr2, hl2⟩
    · exact Or.inl ⟨bf2.trans bf1, bl2.trans bl1, Δ1 ++ Δ2,
        by rw [bc2, bc1, List.append_assoc]⟩
    · refine Or.inr ⟨Δ1 ++ Δ2, rest2, ?_, hr2, hl2⟩
      rw [bf2, bf1, bl1, bc1, List.append_assoc]
  · rcases b2 with ⟨bf2, bl2, Δ2, bc2⟩ | ⟨Δ2, rest2, bf2, hr2, hl2⟩
    · refine Or.inr ⟨Δ1, rest1, by rw [bf2, bf1], hr1, by rw [bl2]; exact hl1⟩
    · refine Or.inr ⟨Δ1, rest1 ++ (⟨s2.curLabel, s2.cur ++ Δ2⟩ :: rest2), ?_, ?_, hl2⟩
      · rw [bf2, bf1]
        simp
      · intro b hb
        rcases List.mem_append.mp hb with hb | hb
        · exact hr1 b hb
        · rcases List.mem_cons.mp hb with hb | hb
          · rw [hb]
            exact hl1
          · exact hr2 b hb

theorem stInstrs_emitI (i : Instr) (st : CGState) :
    stInstrs (emitI i st) = stInstrs st ++ [i] := by
  simp [stInstrs, emitI]

theorem stInstrs_close (l : String) (st : CGState) :
    stInstrs (closeAndStart l st) = stInstrs st := by
  simp [stInstrs, closeAndStart]

theorem ExprInv.stInstrs_ext {st st' : CGState} (h : ExprInv st st') :
    ∃ Δ, stInstrs st' = stInstrs st ++ Δ ∧ noReturns Δ := by
  obtain ⟨f, l, n, r, e, Δ, hc, hr⟩ := h
  exact ⟨Δ, by simp [stInstrs, f, hc], hr⟩


theorem StmtInv.semit {st st' : CGState} (h : StmtInv st st') (i : Instr) :
    StmtInv st (emitI i st') :=
  h.strans ⟨by rfl, by rfl, by rfl, Or.inl ⟨by rfl, by rfl, [i], by simp [emitI]⟩⟩

mutual

theorem lowerStmt_inv (s : GStmt) (st st' : CGState) (h : lowerStmt s st = .ok st') :
    StmtInv st st' ∧ ∃ Δall, stInstrs st' = stInstrs st ++ Δall ∧
      (hasBareReturn s = false → noReturns Δall) := by
  cases s with
  | compound ss =>
    simp only [lowerStmt] at h
    obtain ⟨hi, Δall, hs, hnr⟩ := lowerStmts_inv ss st st' h
    exact ⟨hi, Δall, hs, fun hb => hnr (by simpa [hasBareReturn] using hb)⟩
  | exprStmt e =>
    simp only [lowerStmt] at h
    cases he : lowerExpr false e st with
    | error err => rw [he] at h; exact absurd h (by simp)
    | ok rr =>
      obtain ⟨loc?, st1⟩ := rr
      rw [he] at h
      try dsimp only at h
      injection h with h
      subst h
      have hinv : ExprInv st st1 := lowerExpr_inv false e st (loc?, st1) he
      obtain ⟨Δ, hΔ, hr⟩ := hinv.stInstrs_ext
      exact ⟨ExprInv.toStmtInv hinv, Δ, hΔ, fun _ => hr⟩
  | retStmt e? =>
    cases e? with
    | some e =>
      simp only [lowerStmt] at h
      cases he : lowerExpr false e st with
      | error err => rw [he] at h; exact absurd h (by simp)
      | ok rr =>
        obtain ⟨loc?, st1⟩ := rr
        rw [he] at h
        try dsimp only at h
        cases loc? with
        | none => exact absurd h (by simp)
        | some value =>
          cases hg : gtype e with
          | none => rw [hg] at h; exact absurd h (by simp)
          | some ty =>
            rw [hg] at h
            try dsimp only at h
            cases hrr : st1.returnReg with
            | none => rw [hrr] at h; exact absurd h (by simp)
            | some rr0 =>
              rw [hrr] at h
              try dsimp only at h
              injection h with h
              subst h
              have hinv : ExprInv st st1 := lowerExpr_inv false e st (some value, st1) he
              obtain ⟨Δ, hΔ, hr⟩ := hinv.stInstrs_ext
              refine ⟨((ExprInv.toStmtInv hinv).semit _).semit _,
                Δ ++ [⟨.store ty.typename, [value, rr0]⟩,
                  ⟨.jump, ["%" ++ (emitI ⟨.store ty.typename, [value, rr0]⟩ st1).exitLabel]⟩],
                ?_, ?_⟩
              · rw [stInstrs_emitI, stInstrs_emitI, hΔ]
                simp
              · intro _
                refine noReturns_append hr ?_
                intro i hi o
                rcases List.mem_cons.mp hi with hh | hh
                · rw [hh]; simp
                · rcases List.mem_cons.mp hh with hh2 | hh2
                  · rw [hh2]; simp
                  · cases hh2
    | none =>
      simp only [lowerStmt] at h
      cases h
      refine ⟨(StmtInv.srefl st).semit _, [⟨.returnOp none, []⟩],
        by rw [stInstrs_emitI], ?_⟩
      intro hb
      exact absurd hb (by simp [hasBareReturn])
  | assertStmt e =>
    simp only [lowerStmt] at h
    by_cases hlv : hasLvalueAttr e = true
    · rw [if_neg (by simp [hlv])] at h
      try dsimp only at h
      cases he : lowerExpr false e
          { st with
            globCounter := st.globCounter + 1
            text := ⟨.globalString,
              ["@.str." ++ toString st.globCounter, "assertion_fail"]⟩ :: st.text } with
      | error err => rw [he] at h; exact absurd h (by simp)
      | ok rr =>
        obtain ⟨loc?, st1⟩ := rr
        rw [he] at h
        try dsimp only at h
        cases loc? with
        | none => exact absurd h (by simp)
        | some cond =>
          try dsimp only at h
          injection h with h
          subst h
          have hinv := lowerExpr_inv false e _ (some cond, st1) he
          obtain ⟨f, l, n, r, e', Δe, hc, hrd⟩ := hinv
          dsimp only at f l n r e' hc
          constructor
          · refine ⟨?_, ?_, ?_, Or.inr ⟨Δe ++ [⟨.cbranch, [cond, "%assert.true", "%assert.false"]⟩],
              [⟨"assert.false",
                [⟨.labelMark "assert.false", []⟩,
                 ⟨.printOp "string", ["@.str." ++ toString st.globCounter]⟩,
                 ⟨.jump, ["%" ++ st1.exitLabel]⟩]⟩], ?_, ?_, ?_⟩⟩
            · simp [emitI, closeAndStart, n]
            · simp [emitI, closeAndStart, r]
            · simp [emitI, closeAndStart, e']
            · simp [emitI, closeAndStart, f, l, hc]
            · intro b hb
              rcases List.mem_singleton.mp hb with hh
              rw [hh]
              exact Or.inr (by rfl)
            · exact Or.inl (by simp [emitI, closeAndStart])
          · refine ⟨Δe ++ [⟨.cbranch, [cond, "%assert.true", "%assert.false"]⟩,
              ⟨.labelMark "assert.false", []⟩,
              ⟨.printOp "string", ["@.str." ++ toString st.globCounter]⟩,
              ⟨.jump, ["%" ++ st1.exitLabel]⟩,
              ⟨.labelMark "assert.true", []⟩], ?_, ?_⟩
            · rw [stInstrs_emitI, stInstrs_close, stInstrs_emitI, stInstrs_emitI,
                stInstrs_emitI, stInstrs_close, stInstrs_emitI]
              have : stInstrs st1 = stInstrs st ++ Δe := by
                simp [stInstrs, f, hc]
              rw [this]
              simp [emitI, closeAndStart]
            · intro _
              refine noReturns_append hrd ?_
              intro i hi o
              fin_cases hi <;> simp
    · rw [if_pos (by simp [hlv])] at h
      exact absurd h (by simp)

theorem lowerStmts_inv (ss : GStmtList) (st st' : CGState)
    (h : lowerStmts ss st = .ok st') :
    StmtInv st st' ∧ ∃ Δall, stInstrs st' = stInstrs st ++ Δall ∧
      (hasBareReturnL ss = false → noReturns Δall) := by
  cases ss with
  | nil =>
    simp only [lowerStmts] at h
    cases h
    exact ⟨StmtInv.srefl st, [], by simp, fun _ => noReturns_nil⟩
  | cons s rest =>
    simp only [lowerStmts] at h
    cases hs : lowerStmt s st with
    | error err => rw [hs] at h; exact absurd h (by simp)
    | ok st1 =>
      rw [hs] at h
      try dsimp only at h
      obtain ⟨hi1, Δ1, hs1, hn1⟩ := lowerStmt_inv s st st1 hs
      obtain ⟨hi2, Δ2, hs2, hn2⟩ := lowerStmts_inv rest st1 st' h
      refine ⟨hi1.strans hi2, Δ1 ++ Δ2, by rw [hs2, hs1, List.append_assoc], ?_⟩
      intro hb
      simp only [hasBareReturnL, Bool.or_eq_false_iff] at hb
      exact noReturns_append (hn1 hb.1) (hn2 hb.2)

end


theorem entry_ne_exit (s : String) : s ++ ".entry" ≠ "exit" := by
  intro h
  have hl := congrArg String.length h
  rw [String.length_append] at hl
  have h6 : ".entry".length = 6 := rfl
  have h4 : "exit".length = 4 := rfl
  omega

theorem stmtLabelOK_ne_exit {l : String} (h : stmtLabelOK l) : l ≠ "exit" := by
  rcases h with h | h <;> rw [h] <;> decide

theorem ensureJump_spec (st : CGState) :
    ∃ J, ensureJump st = { st with cur := st.cur ++ J } ∧ noReturns J := by
  unfold ensureJump
  cases hl : st.cur.getLast? with
  | none =>
    dsimp only
    refine ⟨[⟨.jump, ["%" ++ st.exitLabel]⟩], by simp [emitI], ?_⟩
    intro i hi o
    rcases List.mem_singleton.mp hi with hh
    rw [hh]; simp
  | some i =>
    dsimp only
    by_cases hj : i.op ≠ Opcode.jump
    · rw [if_pos hj]
      refine ⟨[⟨.jump, ["%" ++ st.exitLabel]⟩], by simp [emitI], ?_⟩
      intro i2 hi o
      rcases List.mem_singleton.mp hi with hh
      rw [hh]; simp
    · rw [if_neg hj]
      exact ⟨[], by simp, noReturns_nil⟩

theorem paramSetup_spec (l : List (Nat × (String × String))) :
    ∀ st : CGState, ∃ Δ : List Instr,
      paramSetup l st = { st with cur := st.cur ++ Δ } ∧ noReturns Δ := by
  unfold paramSetup
  induction l with
  | nil =>
    intro st
    exact ⟨[], by simp, noReturns_nil⟩
  | cons a l ih =>
    intro st
    obtain ⟨Δ, hΔ, hr⟩ := ih (emitI ⟨.store a.2.1, ["%" ++ toString (a.1 + 1), "%" ++ a.2.2]⟩
      (emitI ⟨.alloc a.2.1, ["%" ++ a.2.2]⟩ st))
    refine ⟨⟨.alloc a.2.1, ["%" ++ a.2.2]⟩ ::
      ⟨.store a.2.1, ["%" ++ toString (a.1 + 1), "%" ++ a.2.2]⟩ :: Δ, ?_, ?_⟩
    · rw [List.foldl_cons, hΔ]
      simp [emitI]
    · intro i hi o
      rcases List.mem_cons.mp hi with hh | hh
      · rw [hh]; simp
      · rcases List.mem_cons.mp hh with hh2 | hh2
        · rw [hh2]; simp
        · exact hr i hh2 o

/-- Characterization of the method prolog: empty block list, the entry label,
the `exit` label, the return slot, and the current block's instructions —
`define`, the `entry:` label mark, for non-void methods the allocation of the
return slot `%(len(params)+2)`, then the parameter setup code. -/
theorem methodProlog_spec (g0 : Nat) (m : GMethod) :
    ∃ Δp : List Instr,
      noReturns Δp ∧
      (methodProlog g0 m).finished = [] ∧
      (methodProlog g0 m).curLabel = m.mname ++ ".entry" ∧
      (methodProlog g0 m).exitLabel = "exit" ∧
      ((m.retTyName ≠ "void" →
        (methodProlog g0 m).returnReg =
          some ("%" ++ toString (m.params.length + 2)) ∧
        (methodProlog g0 m).cur =
          ⟨.defineOp m.retTyName,
            ("@" ++ m.className ++ "." ++ m.mname) :: renderParams m.params⟩ ::
          ⟨.labelMark "entry", []⟩ ::
          ⟨.alloc m.retTyName, ["%" ++ toString (m.params.length + 2)]⟩ :: Δp) ∧
       (m.retTyName = "void" →
        (methodProlog g0 m).returnReg = none ∧
        (methodProlog g0 m).cur =
          ⟨.defineOp m.retTyName,
            ("@" ++ m.className ++ "." ++ m.mname) :: renderParams m.params⟩ ::
          ⟨.labelMark "entry", []⟩ :: Δp)) := by
  by_cases hv : m.retTyName = "void"
  · unfold methodProlog
    simp only [hv, ne_eq, not_true_eq_false, Bool.false_eq_true, reduceIte, if_false]
    obtain ⟨Δ, hΔ, hr⟩ := paramSetup_spec m.params.enum _
    rw [hΔ]
    exact ⟨Δ, hr, by simp [emitI], by simp [emitI], by simp [emitI],
      fun hf => hf.elim, fun _ => ⟨by simp [emitI], by simp [emitI]⟩⟩
  · unfold methodProlog
    simp only [hv, ne_eq, not_false_eq_true, if_true, reduceIte]
    obtain ⟨Δ, hΔ, hr⟩ := paramSetup_spec m.params.enum _
    rw [hΔ]
    refine ⟨Δ, hr, by simp [emitI, new_temp], by simp [emitI, new_temp],
      by simp [emitI, new_temp], fun _ => ⟨?_, ?_⟩, fun hf => hf.elim⟩
    · simp [emitI, new_temp, hv]
    · simp [emitI, new_temp, hv]


theorem c2_method_epilogue (g0 : Nat) (m : GMethod) (bs : List BBlock)
    (h : genMethod g0 m = .ok bs) :
    (∃ front exitB, bs = front ++ [exitB] ∧ exitB.label = "exit" ∧
       (∀ b ∈ front, b.label ≠ "exit") ∧
       (m.retTyName ≠ "void" → ∃ t, exitB.instrs =
          [⟨.labelMark "exit", []⟩,
           ⟨.load m.retTyName, ["%" ++ toString (m.params.length + 2), t]⟩,
           ⟨.returnOp (some m.retTyName), [t]⟩]) ∧
       (m.retTyName = "void" → exitB.instrs =
          [⟨.labelMark "exit", []⟩, ⟨.returnOp none, []⟩])) ∧
    (m.retTyName ≠ "void" →
      ∃ b rest, bs = b :: rest ∧ b.label = m.mname ++ ".entry" ∧
        b.instrs.get? 2 = some ⟨.alloc m.retTyName,
          ["%" ++ toString (m.params.length + 2)]⟩) ∧
    (hasBareReturn m.body = false →
      ∀ b ∈ bs, b.label ≠ "exit" → ∀ i ∈ b.instrs, ∀ o, i.op ≠ .returnOp o) ∧
    (∀ (e : GExpr) (stb stb' : CGState) (rr : String), stb.returnReg = some rr →
      lowerStmt (.retStmt (some e)) stb = .ok stb' →
      ∃ Δ loc ty, gtype e = some ty ∧
        stb'.cur = stb.cur ++ Δ ++
          [⟨.store ty.typename, [loc, rr]⟩, ⟨.jump, ["%" ++ stb.exitLabel]⟩]) := by
  have hE : ∀ (e : GExpr) (stb stb' : CGState) (rr : String),
      stb.returnReg = some rr →
      lowerStmt (.retStmt (some e)) stb = .ok stb' →
      ∃ Δ loc ty, gtype e = some ty ∧
        stb'.cur = stb.cur ++ Δ ++
          [⟨.store ty.typename, [loc, rr]⟩, ⟨.jump, ["%" ++ stb.exitLabel]⟩] := by
    intro e stb stb' rr hrr hl
    simp only [lowerStmt] at hl
    cases he : lowerExpr false e stb with
    | error err => rw [he] at hl; exact absurd hl (by simp)
    | ok rrr =>
      obtain ⟨loc?, st1⟩ := rrr
      rw [he] at hl
      try dsimp only at hl
      cases loc? with
      | none => exact absurd hl (by simp)
      | some value =>
        cases hg : gtype e with
        | none => rw [hg] at hl; exact absurd hl (by simp)
        | some ty =>
          rw [hg] at hl
          try dsimp only at hl
          have hinv : ExprInv stb st1 := lowerExpr_inv false e stb (some value, st1) he
          have hrr1 : st1.returnReg = some rr := by rw [hinv.returnReg_eq, hrr]
          rw [hrr1] at hl
          try dsimp only at hl
          injection hl with hl
          subst hl
          obtain ⟨Δ, hc, -⟩ := hinv.cur_ext
          refine ⟨Δ, value, ty, rfl, ?_⟩
          simp [emitI, hc, hinv.exitLabel_eq]
  unfold genMethod at h
  cases hbody : lowerStmt m.body (methodProlog g0 m) with
  | error err => rw [hbody] at h; exact absurd h (by simp)
  | ok st1 =>
    rw [hbody] at h
    try dsimp only at h
    injection h with h
    obtain ⟨SI, Δall, hIall, hnr⟩ := lowerStmt_inv m.body _ st1 hbody
    obtain ⟨Δp, hrp, hpf, hpl, hpe, hnvP, hvdP⟩ := methodProlog_spec g0 m
    obtain ⟨J, hJ, hrJ⟩ := ensureJump_spec st1
    have hstP : stInstrs (methodProlog g0 m) = (methodProlog g0 m).cur := by
      simp [stInstrs, hpf]
    have hstI : stInstrs st1 = (methodProlog g0 m).cur ++ Δall := by
      rw [hIall, hstP]
    have hpc : noReturns (methodProlog g0 m).cur := by
      by_cases hv : m.retTyName = "void"
      · rw [(hvdP hv).2]
        intro i hi o
        rcases List.mem_cons.mp hi with hh | hh
        · rw [hh]; simp
        · rcases List.mem_cons.mp hh with hh2 | hh2
          · rw [hh2]; simp
          · exact hrp i hh2 o
      · rw [(hnvP hv).2]
        intro i hi o
        rcases List.mem_cons.mp hi with hh | hh
        · rw [hh]; simp
        · rcases List.mem_cons.mp hh with hh2 | hh2
          · rw [hh2]; simp
          · rcases List.mem_cons.mp hh2 with hh3 | hh3
            · rw [hh3]; simp
            · exact hrp i hh3 o
    have hfrontlab : ∀ b ∈ st1.finished ++ [(⟨st1.curLabel, st1.cur ++ J⟩ : BBlock)],
        b.label ≠ "exit" := by
      intro b hb
      rcases List.mem_append.mp hb with hbf | hbA
      · rcases SI.blocks with ⟨bf, bl, -⟩ | ⟨Δ2, rest, bf, hrl, hcl⟩
        · rw [bf, hpf] at hbf
          cases hbf
        · rw [bf, hpf, List.nil_append] at hbf
          rcases List.mem_cons.mp hbf with hh | hh
          · rw [hh]
            rw [hpl]
            exact entry_ne_exit _
          · exact stmtLabelOK_ne_exit (hrl b hh)
      · rcases List.mem_singleton.mp hbA with hh
        rw [hh]
        rcases SI.blocks with ⟨bf, bl, -⟩ | ⟨Δ2, rest, bf, hrl, hcl⟩
        · show st1.curLabel ≠ "exit"
          rw [bl, hpl]
          exact entry_ne_exit _
        · exact stmtLabelOK_ne_exit hcl
    have hmemI : ∀ b ∈ st1.finished ++ [(⟨st1.curLabel, st1.cur ++ J⟩ : BBlock)],
        ∀ i ∈ b.instrs, i ∈ stInstrs st1 ∨ i ∈ J := by
      intro b hb i hi
      rcases List.mem_append.mp hb with hbf | hbA
      · left
        apply List.mem_append_left
        rw [List.mem_flatten]
        exact ⟨b.instrs, List.mem_map_of_mem BBlock.instrs hbf, hi⟩
      · rcases List.mem_singleton.mp hbA with hh
        rw [hh] at hi
        rcases List.mem_append.mp hi with hc | hc
        · left
          exact List.mem_append_right _ hc
        · right
          exact hc
    have hDgen : hasBareReturn m.body = false →
        ∀ b ∈ st1.finished ++ [(⟨st1.curLabel, st1.cur ++ J⟩ : BBlock)],
        ∀ i ∈ b.instrs, ∀ o, i.op ≠ .returnOp o := by
      intro hbare b hb i hi o
      rcases hmemI b hb i hi with hin | hin
      · rw [hstI] at hin
        rcases List.mem_append.mp hin with hin2 | hin2
        · exact hpc i hin2 o
        · exact hnr hbare i hin2 o
      · exact hrJ i hin o
    have hfirst : ∃ (tail : List Instr) (rest2 : List BBlock),
        st1.finished ++ [(⟨st1.curLabel, st1.cur ++ J⟩ : BBlock)] =
          (⟨(methodProlog g0 m).curLabel,
            (methodProlog g0 m).cur ++ tail⟩ : BBlock) :: rest2 := by
      rcases SI.blocks with ⟨bf, bl, Δc, bc⟩ | ⟨Δ2, rest, bf, hrl, hcl⟩
      · refine ⟨Δc ++ J, [], ?_⟩
        rw [bf, hpf, List.nil_append, bl, bc, List.append_assoc]
      · refine ⟨Δ2, rest ++ [⟨st1.curLabel, st1.cur ++ J⟩], ?_⟩
        rw [bf, hpf, List.nil_append]
        simp
    by_cases hv : m.retTyName = "void"
    · have hrrS : st1.returnReg = none := by
        rw [SI.returnReg_eq]
        exact (hvdP hv).1
      have hbs : bs = (st1.finished ++ [(⟨st1.curLabel, st1.cur ++ J⟩ : BBlock)]) ++
          [⟨"exit", [⟨.labelMark "exit", []⟩, ⟨.returnOp none, []⟩]⟩] := by
        rw [← h, hJ]
        simp [closeAndStart, emitI, exitEpilogue, hrrS]
      refine ⟨⟨st1.finished ++ [⟨st1.curLabel, st1.cur ++ J⟩],
        ⟨"exit", [⟨.labelMark "exit", []⟩, ⟨.returnOp none, []⟩]⟩,
        hbs, by rfl, hfrontlab, fun hnv => absurd hv hnv, fun _ => by rfl⟩,
        fun hnv => absurd hv hnv, ?_, hE⟩
      intro hbare b hb hlbl i hi o
      rw [hbs] at hb
      rcases List.mem_append.mp hb with hbf | hbe
      · exact hDgen hbare b hbf i hi o
      · rcases List.mem_singleton.mp hbe with hh
        rw [hh] at hlbl
        exact absurd (by rfl) hlbl
    · have hrrS : st1.returnReg = some ("%" ++ toString (m.params.length + 2)) := by
        rw [SI.returnReg_eq]
        exact (hnvP hv).1
      have hbs : bs = (st1.finished ++ [(⟨st1.curLabel, st1.cur ++ J⟩ : BBlock)]) ++
          [⟨"exit", [⟨.labelMark "exit", []⟩,
            ⟨.load m.retTyName,
              ["%" ++ toString (m.params.length + 2), "%" ++ toString st1.counter]⟩,
            ⟨.returnOp (some m.retTyName), ["%" ++ toString st1.counter]⟩]⟩] := by
        rw [← h, hJ]
        simp [closeAndStart, emitI, exitEpilogue, hrrS, new_temp]
      refine ⟨⟨st1.finished ++ [⟨st1.curLabel, st1.cur ++ J⟩],
        ⟨"exit", [⟨.labelMark "exit", []⟩,
          ⟨.load m.retTyName,
            ["%" ++ toString (m.params.length + 2), "%" ++ toString st1.counter]⟩,
          ⟨.returnOp (some m.retTyName), ["%" ++ toString st1.counter]⟩]⟩,
        hbs, by rfl, hfrontlab,
        fun _ => ⟨"%" ++ toString st1.counter, by rfl⟩,
        fun hvv => absurd hvv hv⟩, ?_, ?_, hE⟩
      · intro _
        obtain ⟨tail, rest2, hft⟩ := hfirst
        refine ⟨⟨(methodProlog g0 m).curLabel, (methodProlog g0 m).cur ++ tail⟩,
          rest2 ++ [⟨"exit", [⟨.labelMark "exit", []⟩,
            ⟨.load m.retTyName,
              ["%" ++ toString (m.params.length + 2), "%" ++ toString st1.counter]⟩,
            ⟨.returnOp (some m.retTyName), ["%" ++ toString st1.counter]⟩]⟩],
          ?_, by rw [hpl], ?_⟩
        · rw [hbs, hft]
          simp
        · show ((methodProlog g0 m).cur ++ tail).get? 2 = _
          rw [(hnvP hv).2]
          rfl
      · intro hbare b hb hlbl i hi o
        rw [hbs] at hb
        rcases List.mem_append.mp hb with hbf | hbe
        · exact hDgen hbare b hbf i hi o
        · rcases List.mem_singleton.mp hbe with hh
          rw [hh] at hlbl
          exact absurd (by rfl) hlbl


/-- Example method `int f(int x) { return 7; }` in class `A` and its
generated blocks. -/
def mEx : GMethod := ⟨"A", "f", "int", [("int", "x")], .retStmt (some (.cint 7))⟩

def bsEx : List BBlock :=
  [⟨"f.entry",
    [⟨.defineOp "int", ["@A.f", "int %1"]⟩,
     ⟨.labelMark "entry", []⟩,
     ⟨.alloc "int", ["%3"]⟩,
     ⟨.alloc "int", ["%x"]⟩,
     ⟨.store "int", ["%1", "%x"]⟩,
     ⟨.literal "int", ["7", "%4"]⟩,
     ⟨.store "int", ["%4", "%3"]⟩,
     ⟨.jump, ["%exit"]⟩]⟩,
   ⟨"exit",
    [⟨.labelMark "exit", []⟩,
     ⟨.load "int", ["%3", "%5"]⟩,
     ⟨.returnOp (some "int"), ["%5"]⟩]⟩]

/-- C2 counterexample: a void method whose body is a bare `return;` emits
`return_void` inside the entry block too, not only in the exit block —
`visit_Return` with no expression emits `return_void` in place. -/
theorem c2_counterexample :
    genMethod 0 ⟨"A", "m", "void", [], .retStmt none⟩ =
      .ok [⟨"m.entry", [⟨.defineOp "void", ["@A.m"]⟩, ⟨.labelMark "entry", []⟩,
          ⟨.returnOp none, []⟩, ⟨.jump, ["%exit"]⟩]⟩,
        ⟨"exit", [⟨.labelMark "exit", []⟩, ⟨.returnOp none, []⟩]⟩] ∧
    ((⟨.returnOp none, []⟩ : Instr) ∈
      [(⟨.defineOp "void", ["@A.m"]⟩ : Instr), ⟨.labelMark "entry", []⟩,
        ⟨.returnOp none, []⟩, ⟨.jump, ["%exit"]⟩]) ∧
    "m.entry" ≠ "exit" := by
  exact ⟨by rfl, by decide, by decide⟩

/-- Witness for C2 amended at `mEx`. -/
theorem c2_method_epilogue_witness :
    ∃ front exitB, bsEx = front ++ [exitB] ∧ exitB.label = "exit" ∧
      (∀ b ∈ front, b.label ≠ "exit") ∧
      (mEx.retTyName ≠ "void" → ∃ t, exitB.instrs =
        [⟨.labelMark "exit", []⟩,
         ⟨.load mEx.retTyName, ["%" ++ toString (mEx.params.length + 2), t]⟩,
         ⟨.returnOp (some mEx.retTyName), [t]⟩]) ∧
      (mEx.retTyName = "void" → exitB.instrs =
        [⟨.labelMark "exit", []⟩, ⟨.returnOp none, []⟩]) :=
  (c2_method_epilogue 0 mEx bsEx (by rfl)).1

end MJC
